import Mathlib

/-!
Verification of the CBC-Agent analytics ingestion service.

This file embeds the privacy pipeline of `packages/ingest-api/app`
(`privacy.py`, `main.py`, the shared pydantic schemas of
`packages/shared/src/python_schemas.py`) as executable Lean definitions and
proves or refutes the stated properties of the pipeline: IP anonymization,
PII redaction, consent gating, event ingestion and webhook authentication.

Python dynamic values are modelled by the inductive type `PyVal`; Python
dicts are modelled as key-unique association lists in insertion order
(Python dicts preserve insertion order and cannot hold duplicate keys).
Machine integers do not occur; hashes are computed over byte lists
(`Nat` values below 256) with explicit `% 2 ^ 32` word arithmetic.
-/

namespace CBC

/-- Model of a Python (JSON-like) dynamic value: `None`, booleans, integers,
strings, lists and dicts.  Dicts are insertion-ordered association lists. -/
inductive PyVal where
  | none
  | pbool (b : Bool)
  | pint (n : Int)
  | str (s : String)
  | list (xs : List PyVal)
  | dict (entries : List (String × PyVal))
deriving Repr

mutual

/-- Structural boolean equality on `PyVal`. -/
def pyBeq : PyVal → PyVal → Bool
  | .none, .none => true
  | .pbool a, .pbool b => a == b
  | .pint a, .pint b => a == b
  | .str a, .str b => a == b
  | .list xs, .list ys => pyBeqList xs ys
  | .dict xs, .dict ys => pyBeqEntries xs ys
  | _, _ => false

/-- Pointwise equality of modelled Python lists. -/
def pyBeqList : List PyVal → List PyVal → Bool
  | [], [] => true
  | x :: xs, y :: ys => pyBeq x y && pyBeqList xs ys
  | _, _ => false

/-- Pointwise equality of modelled dict entry lists. -/
def pyBeqEntries : List (String × PyVal) → List (String × PyVal) → Bool
  | [], [] => true
  | (k, v) :: xs, (k', v') :: ys => k == k' && pyBeq v v' && pyBeqEntries xs ys
  | _, _ => false

end

/-- `dict.get(key, default)` as used by `validate_consent`: first association
for `key`, or the default. -/
def pyGet (entries : List (String × PyVal)) (key : String) (dflt : PyVal) : PyVal :=
  match entries.find? (fun e => e.1 == key) with
  | some e => e.2
  | Option.none => dflt

/-- Optional lookup in a modelled dict. -/
def pyLookup (entries : List (String × PyVal)) (key : String) : Option PyVal :=
  (entries.find? (fun e => e.1 == key)).map (fun e => e.2)

/-- Python truthiness for the modelled values (`bool(v)`). -/
def pyTruthy : PyVal → Bool
  | .none => false
  | .pbool b => b
  | .pint n => n != 0
  | .str s => s != ""
  | .list xs => xs.length != 0
  | .dict entries => entries.length != 0

/-!
### SHA-256 and HMAC-SHA256

`hash_ip` (privacy.py) and the webhook authenticator compute
`hmac.new(salt.encode(), data.encode(), hashlib.sha256).hexdigest()`.
Bytes are `Nat` values below 256 and 32-bit words are `Nat` values reduced
modulo `2 ^ 32`.
-/

/-- Reduce to a 32-bit word. -/
def w32 (n : Nat) : Nat := n % 4294967296

/-- 32-bit right rotation. -/
def rotr (n w : Nat) : Nat := w32 ((w >>> n) ||| (w <<< (32 - n)))

/-- The 64 SHA-256 round constants, in decimal. -/
def shaK : List Nat :=
  [1116352408, 1899447441, 3049323471, 3921009573, 961987163,
   1508970993, 2453635748, 2870763221, 3624381080, 310598401,
   607225278, 1426881987, 1925078388, 2162078206, 2614888103,
   3248222580, 3835390401, 4022224774, 264347078, 604807628,
   770255983, 1249150122, 1555081692, 1996064986, 2554220882,
   2821834349, 2952996808, 3210313671, 3336571891, 3584528711,
   113926993, 338241895, 666307205, 773529912, 1294757372,
   1396182291, 1695183700, 1986661051, 2177026350, 2456956037,
   2730485921, 2820302411, 3259730800, 3345764771, 3516065817,
   3600352804, 4094571909, 275423344, 430227734, 506948616,
   659060556, 883997877, 958139571, 1322822218, 1537002063,
   1747873779, 1955562222, 2024104815, 2227730452, 2361852424,
   2428436474, 2756734187, 3204031479, 3329325298]

/-- The SHA-256 initial hash state, in decimal. -/
def shaInit : List Nat :=
  [1779033703, 3144134277, 1013904242, 2773480762,
   1359893119, 2600822924, 528734635, 1541459225]

/-- Big-endian 32-bit words from a byte list (length a multiple of 4). -/
def bytesToWords : List Nat → List Nat
  | a :: b :: c :: d :: rest => (a * 16777216 + b * 65536 + c * 256 + d) :: bytesToWords rest
  | _ => []

/-- Big-endian bytes of a 32-bit word. -/
def wordBytes (w : Nat) : List Nat :=
  [w / 16777216 % 256, w / 65536 % 256, w / 256 % 256, w % 256]

/-- Extend 16 schedule words to 64 (message schedule recurrence). -/
def shaExtend (ws : Array Nat) : Array Nat :=
  (List.range 48).foldl
    (fun a j =>
      let i := j + 16
      let x := a.getD (i - 15) 0
      let y := a.getD (i - 2) 0
      let s0 := rotr 7 x ^^^ rotr 18 x ^^^ (x >>> 3)
      let s1 := rotr 17 y ^^^ rotr 19 y ^^^ (y >>> 10)
      a.push (w32 (a.getD (i - 16) 0 + s0 + a.getD (i - 7) 0 + s1)))
    ws

/-- One SHA-256 round. -/
def shaRound (st : List Nat) (kw : Nat × Nat) : List Nat :=
  match st with
  | [a, b, c, d, e, f, g, h] =>
    let s1 := rotr 6 e ^^^ rotr 11 e ^^^ rotr 25 e
    let ch := (e &&& f) ^^^ ((2 ^ 32 - 1 - e) &&& g)
    let t1 := w32 (h + s1 + ch + kw.1 + kw.2)
    let s0 := rotr 2 a ^^^ rotr 13 a ^^^ rotr 22 a
    let mj := (a &&& b) ^^^ (a &&& c) ^^^ (b &&& c)
    let t2 := w32 (s0 + mj)
    [w32 (t1 + t2), a, b, c, w32 (d + t1), e, f, g]
  | st => st

/-- Compress one 64-byte block into the running state. -/
def shaCompress (st : List Nat) (block : List Nat) : List Nat :=
  let ws := (shaExtend (Array.mk (bytesToWords block))).toList
  let fin := (shaK.zip ws).foldl shaRound st
  (st.zip fin).map (fun p => w32 (p.1 + p.2))

/-- Split a byte list into 64-byte blocks, accumulating the current block
in reverse. -/
def toBlocksGo (cur : List Nat) : List Nat → List (List Nat)
  | [] => if cur.isEmpty then [] else [cur.reverse]
  | b :: rest =>
    if cur.length = 63 then (b :: cur).reverse :: toBlocksGo [] rest
    else toBlocksGo (b :: cur) rest

/-- Split a byte list into 64-byte blocks. -/
def toBlocks (bs : List Nat) : List (List Nat) := toBlocksGo [] bs

/-- SHA-256 padding: `0x80`, zeros to 56 mod 64, 8-byte big-endian bit length. -/
def shaPad (msg : List Nat) : List Nat :=
  let l := msg.length
  let zeros := (64 + 55 - l % 64) % 64
  let bits := l * 8
  msg ++ 0x80 :: List.replicate zeros 0 ++
    [bits / 2 ^ 56 % 256, bits / 2 ^ 48 % 256, bits / 2 ^ 40 % 256,
     bits / 2 ^ 32 % 256, bits / 2 ^ 24 % 256, bits / 2 ^ 16 % 256,
     bits / 2 ^ 8 % 256, bits % 256]

/-- SHA-256 digest (32 bytes) of a byte list. -/
def sha256 (msg : List Nat) : List Nat :=
  ((toBlocks (shaPad msg)).foldl shaCompress shaInit).flatMap wordBytes

/-- HMAC-SHA256 (RFC 2104) digest of `msg` under `key`, as 32 bytes. -/
def hmacSha256 (key msg : List Nat) : List Nat :=
  let k0 := if key.length > 64 then sha256 key else key
  let k := k0 ++ List.replicate (64 - k0.length) 0
  let ipad := k.map (fun b => b ^^^ 0x36)
  let opad := k.map (fun b => b ^^^ 0x5c)
  sha256 (opad ++ sha256 (ipad ++ msg))

/-- Lowercase hexadecimal digit for a value below 16. -/
def hexDigit (n : Nat) : Char :=
  if n < 10 then Char.ofNat (48 + n) else Char.ofNat (87 + n)

/-- Lowercase hex string of a byte list (`.hexdigest()`). -/
def hexOfBytes (bs : List Nat) : String :=
  String.mk (bs.flatMap (fun b => [hexDigit (b / 16), hexDigit (b % 16)]))

/-- UTF-8 bytes of a string (`str.encode()`): code points below 128 only,
which covers every string the pipeline hashes. -/
def strBytes (s : String) : List Nat := s.data.map Char.toNat

/-!
### IP parsing and anonymization (`privacy.py`, `ipaddress` stdlib)

`truncate_ip` parses with `ipaddress.ip_address` (IPv4 first, then IPv6),
keeps a /24 (IPv4) or /48 (IPv6) network address, and on any parse failure
returns the `"0.0.0.0"` fallback from its `except` block.  The parser and
formatter below follow CPython's `ipaddress` module: decimal octets without
leading zeros for IPv4; `:`-separated hextets with at most one `::`, an
optional embedded IPv4 tail and an optional nonempty `%scope` suffix for
IPv6; formatting compresses the leftmost longest run of two or more zero
hextets.  ASCII digits only, as in CPython.
-/

/-- Hex digit test (ASCII). -/
def isHexC (c : Char) : Bool :=
  c.isDigit || ('a' ≤ c && c ≤ 'f') || ('A' ≤ c && c ≤ 'F')

/-- Value of an ASCII hex digit. -/
def hexValC (c : Char) : Nat :=
  if c.isDigit then c.toNat - 48
  else if 'a' ≤ c && c ≤ 'f' then c.toNat - 87
  else c.toNat - 55

/-- `str.split(sep)` for a one-character separator, over character lists. -/
def splitOnChar (sep : Char) : List Char → List (List Char)
  | [] => [[]]
  | c :: rest =>
    if c = sep then [] :: splitOnChar sep rest
    else
      match splitOnChar sep rest with
      | h :: t => (c :: h) :: t
      | [] => [[c]]

/-- One IPv4 octet: 1-3 ASCII digits, no leading zero, at most 255. -/
def parseOctet (cs : List Char) : Option Nat :=
  if cs.length = 0 || cs.length > 3 then Option.none
  else if !(cs.all Char.isDigit) then Option.none
  else if cs.length > 1 && cs.headD '0' = '0' then Option.none
  else
    let v := cs.foldl (fun a c => a * 10 + (c.toNat - 48)) 0
    if v ≤ 255 then some v else Option.none

/-- IPv4 parser: exactly four octets, as a 32-bit value. -/
def parseIPv4Chars (cs : List Char) : Option Nat :=
  match splitOnChar '.' cs with
  | [a, b, c, d] => do
    let a ← parseOctet a
    let b ← parseOctet b
    let c ← parseOctet c
    let d ← parseOctet d
    pure (a * 16777216 + b * 65536 + c * 256 + d)
  | _ => Option.none

/-- IPv4 parser on strings. -/
def parseIPv4 (s : String) : Option Nat := parseIPv4Chars s.data

/-- One IPv6 hextet: 1-4 ASCII hex digits. -/
def parseHextet (cs : List Char) : Option Nat :=
  if cs.length = 0 || cs.length > 4 then Option.none
  else if !(cs.all isHexC) then Option.none
  else some (cs.foldl (fun a c => a * 16 + hexValC c) 0)

/-- Lowercase hex digits of `n`, no leading zeros (Python `'%x' % n`). -/
def hexRepChars (n : Nat) : List Char := Nat.toDigits 16 n

/-- Lowercase hex string of `n`. -/
def hexRep (n : Nat) : String := String.mk (hexRepChars n)

/-- Parse all pieces of a list as hextets. -/
def parseHextets (parts : List (List Char)) : Option (List Nat) :=
  match parts with
  | [] => some []
  | p :: rest => do
    let v ← parseHextet p
    let vs ← parseHextets rest
    pure (v :: vs)

/-- Combine eight 16-bit groups (big-endian) into a 128-bit value. -/
def groupsToV6 (gs : List Nat) : Nat :=
  gs.foldl (fun a g => a * 65536 + g) 0

/-- IPv6 parser following CPython `_BaseV6._ip_int_from_string`: strip one
nonempty `%scope`, convert an embedded IPv4 tail into two hextets, then
resolve at most one `::` gap. -/
def parseIPv6 (s : String) : Option Nat := do
  let addr ← match splitOnChar '%' s.data with
    | [a] => some a
    | [a, sc] => if sc = [] then Option.none else some a
    | _ => Option.none
  let parts := splitOnChar ':' addr
  if parts.length < 3 then failure
  let parts ← match parts.getLast? with
    | some last =>
      if last.contains '.' then
        (parseIPv4Chars last).map
          (fun v4 => parts.dropLast ++ [hexRepChars (v4 / 65536), hexRepChars (v4 % 65536)])
      else some parts
    | Option.none => Option.none
  let n := parts.length
  if n > 9 then failure
  let skips := (List.range n).filter (fun i => decide (0 < i) && decide (i < n - 1) &&
    (parts.getD i ['x'] == []))
  match skips with
  | [] =>
    if n ≠ 8 then failure
    let gs ← parseHextets parts
    pure (groupsToV6 gs)
  | [i] =>
    let hi := if parts.headD ['x'] = [] then i - 1 else i
    if parts.headD ['x'] = [] && hi ≠ 0 then failure
    let lo0 := n - i - 1
    let lo := if parts.getLast? = some [] then lo0 - 1 else lo0
    if parts.getLast? = some [] && lo ≠ 0 then failure
    if 8 - (hi + lo) < 1 then failure
    let gsHi ← parseHextets (parts.take hi)
    let gsLo ← parseHextets (parts.drop (n - lo))
    pure (groupsToV6 (gsHi ++ List.replicate (8 - (hi + lo)) 0 ++ gsLo))
  | _ => failure

/-- A parsed address, as `ipaddress.ip_address` produces. -/
inductive IpAddr where
  | v4 (n : Nat)
  | v6 (n : Nat)
deriving Repr, DecidableEq

/-- `ipaddress.ip_address`: try IPv4, then IPv6. -/
def parseIp (s : String) : Option IpAddr :=
  match parseIPv4 s with
  | some n => some (.v4 n)
  | Option.none =>
    match parseIPv6 s with
    | some n => some (.v6 n)
    | Option.none => Option.none

/-- Dotted-decimal formatting of a 32-bit IPv4 value
(`'.'.join(map(str, ...))`). -/
def fmtIPv4 (n : Nat) : String :=
  Nat.repr (n / 16777216 % 256) ++ "." ++ Nat.repr (n / 65536 % 256) ++ "." ++
    Nat.repr (n / 256 % 256) ++ "." ++ Nat.repr (n % 256)

/-- `sep.join(xs)`. -/
def joinSep (sep : String) : List String → String
  | [] => ""
  | [x] => x
  | x :: y :: rest => x ++ sep ++ joinSep sep (y :: rest)

/-- Leftmost longest run (length at least 2) of zero hextets, as CPython
`_compress_hextets` finds it: returns (start, length). -/
def bestZeroRun (hs : List String) : Nat × Nat :=
  let st := hs.foldl
    (fun (st : Nat × Nat × Nat × Nat × Nat) h =>
      let (bs, bl, cs, cl, i) := st
      if h = "0" then
        let cs := if cl = 0 then i else cs
        let cl := cl + 1
        if cl > bl then (cs, cl, cs, cl, i + 1) else (bs, bl, cs, cl, i + 1)
      else (bs, bl, 0, 0, i + 1))
    (0, 0, 0, 0, 0)
  (st.1, st.2.1)

/-- CPython `IPv6Address.__str__`: hextets in lowercase hex without leading
zeros, with the best zero run compressed to `::`. -/
def fmtIPv6 (n : Nat) : String :=
  let hextets := (List.range 8).map (fun i => hexRep (n / 2 ^ (16 * (7 - i)) % 65536))
  let bs := (bestZeroRun hextets).1
  let bl := (bestZeroRun hextets).2
  if bl > 1 then
    let e := bs + bl
    let hx := hextets ++ (if e = 8 then [""] else [])
    let hx := hx.take bs ++ [""] ++ hx.drop e
    let hx := (if bs = 0 then [""] else []) ++ hx
    joinSep ":" hx
  else
    joinSep ":" hextets

/-- The body of `truncate_ip`'s `try` block: parse, keep the /24 (IPv4) or
/48 (IPv6) network address, format.  Parse failure is the `ValueError` that
the `except` block catches. -/
def truncBody (s : String) : Except String String :=
  match parseIp s with
  | some (.v4 n) => .ok (fmtIPv4 (n / 256 * 256))
  | some (.v6 n) => .ok (fmtIPv6 (n / 2 ^ 80 * 2 ^ 80))
  | Option.none => .error "does not appear to be an IPv4 or IPv6 address"

/-- `truncate_ip` (privacy.py): the `try` body with fallback `"0.0.0.0"`. -/
def truncate_ip (s : String) : String :=
  match truncBody s with
  | .ok v => v
  | .error _ => "0.0.0.0"

/-- The body of `hash_ip`'s `try` block; it is total on strings. -/
def hashBody (ip salt : String) : Except String String :=
  .ok (hexOfBytes (hmacSha256 (strBytes salt) (strBytes ip)))

/-- `hash_ip` (privacy.py): HMAC-SHA256 hex digest, empty on failure. -/
def hash_ip (ip salt : String) : String :=
  match hashBody ip salt with
  | .ok v => v
  | .error _ => ""

/-- `process_ip_data` (privacy.py): the privacy-safe IP record. -/
def process_ip_data (ip salt : String) : List (String × PyVal) :=
  [("ip_trunc", .str (truncate_ip ip)), ("ip_hash", .str (hash_ip ip salt))]

/-- `validate_consent` (privacy.py): `consent_flags.get("analytics", False)`.
The returned Python value is used as a condition, via `pyTruthy`. -/
def validate_consent (consent_flags : List (String × PyVal)) : PyVal :=
  pyGet consent_flags "analytics" (.pbool false)

/-!
### PII text redaction (`privacy.py`: `redact_pii`)

The four patterns are Python `re` regexes.  They are embedded with a small
backtracking matcher whose preference order is the regex engine's
(alternation left-first, quantifiers greedy), over the ASCII fragment of the
character classes; `re.sub` is the leftmost scan below.  None of the four
patterns can match the empty string (each requires digits or letters), so
the scanner treats an empty match as no match.
-/

/-- Regular-expression fragment used by the four PII patterns.  Unbounded
repetition occurs only over single-character classes in these patterns, so
it is a primitive here (`repGE p n` is `p{n,}`, greedy). -/
inductive RePat where
  | eps
  | cls (p : Char → Bool)
  | seq (a b : RePat)
  | alt (a b : RePat)
  | opt (a : RePat)
  | repGE (p : Char → Bool) (min : Nat)
  | wordB

/-- Word character, ASCII fragment of Python `\w`. -/
def isWordC (c : Char) : Bool := c.isAlphanum || c = '_'

/-- Wordness of an optional character (string edges are non-word). -/
def wordness : Option Char → Bool
  | Option.none => false
  | some c => isWordC c

/-- `\b`: the wordness changes between the previous and the next character. -/
def isBoundary (l r : Option Char) : Bool := wordness l != wordness r

/-- Matcher state: the character just before the current position (for
`\b`), and the remaining input. -/
def ReSt : Type := Option Char × List Char

/-- All ways a pattern can consume a prefix of the state's input, in the
backtracking engine's preference order (first result is the one the engine
commits to). -/
def matchAll : RePat → ReSt → List ReSt
  | .eps, st => [st]
  | .cls p, (_, c :: rest) => if p c then [(some c, rest)] else []
  | .cls _, (_, []) => []
  | .seq a b, st => (matchAll a st).flatMap (matchAll b)
  | .alt a b, st => matchAll a st ++ matchAll b st
  | .opt a, st => matchAll a st ++ [st]
  | .repGE p min, (prev, cs) =>
    let run := cs.takeWhile p
    let k := run.length
    if k < min then []
    else (List.range (k + 1 - min)).map
      (fun j =>
        let t := k - j
        (if t = 0 then prev else some (run.getD (t - 1) ' '), cs.drop t))
  | .wordB, (prev, cs) => if isBoundary prev cs.head? then [(prev, cs)] else []

/-- Length of the match the engine commits to at the current position. -/
def firstMatchLen (pat : RePat) (prev : Option Char) (cs : List Char) : Option Nat :=
  match matchAll pat (prev, cs) with
  | (_, rest) :: _ => some (cs.length - rest.length)
  | [] => Option.none

/-- `re.sub`: scan left to right over the original characters, replacing
each committed nonempty match and resuming right after it (`prev` is always
the original character before the current position). -/
def scanSub (pat : RePat) (repl : List Char) (prev : Option Char) (cs : List Char) : List Char :=
  match cs with
  | [] => []
  | c :: rest =>
    match firstMatchLen pat prev (c :: rest) with
    | some (k + 1) =>
      repl ++ scanSub pat repl (some ((c :: rest).getD k ' ')) ((c :: rest).drop (k + 1))
    | _ => c :: scanSub pat repl (some c) rest
termination_by cs.length
decreasing_by
  all_goals simp [List.length_drop]
  omega

/-- `re.sub(pat, repl, s)` on strings. -/
def pySub (pat : RePat) (repl : String) (s : String) : String :=
  String.mk (scanSub pat repl.data Option.none s.data)

/-- Sequence of a list of fragments. -/
def seqL (ps : List RePat) : RePat := ps.foldr .seq .eps

/-- `p{n}`: exactly `n` characters of a class. -/
def exactly (n : Nat) (p : Char → Bool) : RePat := seqL (List.replicate n (.cls p))

/-- A single literal character. -/
def lit (c : Char) : RePat := .cls (fun d => d = c)

/-- ASCII fragment of Python `\s`. -/
def isSpaceC (c : Char) : Bool :=
  c = ' ' || c = '\t' || c = '\n' || c = '\r' || c = '\x0b' || c = '\x0c'

/-- `[-.\s]` (phone separators). -/
def phoneSep (c : Char) : Bool := c = '-' || c = '.' || isSpaceC c

/-- `[-\s]` (card separators). -/
def ccSep (c : Char) : Bool := c = '-' || isSpaceC c

/-- `[A-Za-z0-9._%+-]` (email local part). -/
def emailLocalC (c : Char) : Bool :=
  c.isAlphanum || c = '.' || c = '_' || c = '%' || c = '+' || c = '-'

/-- `[A-Za-z0-9.-]` (email domain). -/
def emailDomC (c : Char) : Bool := c.isAlphanum || c = '.' || c = '-'

/-- `[A-Z|a-z]` (email "TLD" class; it literally contains `|`). -/
def emailTldC (c : Char) : Bool := c.isAlpha || c = '|'

/-- ASCII digit, fragment of `\d`. -/
def isDigitC (c : Char) : Bool := c.isDigit

/-- `EMAIL_PATTERN = \b[A-Za-z0-9._%+-]+@[A-Za-z0-9.-]+\.[A-Z|a-z]{2,}\b` -/
def emailPat : RePat :=
  seqL [.wordB, .repGE emailLocalC 1, lit '@', .repGE emailDomC 1, lit '.',
    .repGE emailTldC 2, .wordB]

/-- `PHONE_PATTERN = \b(?:\+?1[-.\s]?)?\(?\d{3}\)?[-.\s]?\d{3}[-.\s]?\d{4}\b` -/
def phonePat : RePat :=
  seqL [.wordB,
    .opt (seqL [.opt (lit '+'), lit '1', .opt (.cls phoneSep)]),
    .opt (lit '('), exactly 3 isDigitC, .opt (lit ')'), .opt (.cls phoneSep),
    exactly 3 isDigitC, .opt (.cls phoneSep), exactly 4 isDigitC, .wordB]

/-- `SSN_PATTERN = \b\d{3}-\d{2}-\d{4}\b` -/
def ssnPat : RePat :=
  seqL [.wordB, exactly 3 isDigitC, lit '-', exactly 2 isDigitC, lit '-',
    exactly 4 isDigitC, .wordB]

/-- `CC_PATTERN = \b(?:\d{4}[-\s]?){3}\d{4}\b` (the `{3}` group unfolded). -/
def ccPat : RePat :=
  seqL [.wordB,
    exactly 4 isDigitC, .opt (.cls ccSep),
    exactly 4 isDigitC, .opt (.cls ccSep),
    exactly 4 isDigitC, .opt (.cls ccSep),
    exactly 4 isDigitC, .wordB]

/-- `redact_pii` (privacy.py): the four substitutions in order; the empty
string is returned unchanged (`if not text`). -/
def redact_pii (text : String) : String :=
  if text = "" then text
  else
    pySub ccPat "[CC_REDACTED]"
      (pySub ssnPat "[SSN_REDACTED]"
        (pySub phonePat "[PHONE_REDACTED]"
          (pySub emailPat "[EMAIL_REDACTED]" text)))

/-!
### Structured redaction (`privacy.py`: `redact_json`)
-/

/-- The default `fields_to_redact` of `redact_json`. -/
def fieldsDefault : List String := ["email", "phone", "name", "address", "ssn", "credit_card"]

mutual

/-- `redact_json` (privacy.py) over a dict's entries: a sensitive key's value
becomes `'[REDACTED]'`; a string value goes through `redact_pii`; a dict
value recurses; a list value is rewritten item-wise; anything else is kept. -/
def redact_json (data : List (String × PyVal)) (fields : List String) :
    List (String × PyVal) :=
  match data with
  | [] => []
  | (key, value) :: rest =>
    let value' :=
      if fields.contains key then PyVal.str "[REDACTED]"
      else
        match value with
        | .str s => .str (redact_pii s)
        | .dict d => .dict (redact_json d fields)
        | .list xs => .list (redactItems xs fields)
        | v => v
    (key, value') :: redact_json rest fields

/-- The list comprehension inside `redact_json`: dict items recurse, string
items go through `redact_pii`, every other item (lists included) is kept. -/
def redactItems (xs : List PyVal) (fields : List String) : List PyVal :=
  match xs with
  | [] => []
  | item :: rest =>
    (match item with
     | .dict d => PyVal.dict (redact_json d fields)
     | .str s => PyVal.str (redact_pii s)
     | v => v) :: redactItems rest fields

end

/-!
### Shared schemas (`python_schemas.py`) and the ingestion pipeline
(`main.py`: `ingest_event`)

`datetime` fields are modelled as their ISO strings.  The pydantic boundary
parse (`parseEnvelope`) models pydantic's defaults: unknown fields are
ignored, the `Literal["CBC-Agent"]` constraint on `app_id` is enforced,
missing optional fields take their declared defaults.  Lenient type
coercions of pydantic are not modelled; the inputs used in this file are
exactly typed.
-/

/-- `ConsentFlags` (python_schemas.py). -/
structure ConsentFlags where
  analytics : Bool
  marketing : Option Bool := Option.none
  functional : Bool := true
deriving Repr, DecidableEq

/-- `DeviceInfo` (python_schemas.py); the field `type` is `type_` here. -/
structure DeviceInfo where
  type_ : String
  os : String
  browser : Option String := Option.none
deriving Repr, DecidableEq

/-- `EventEnvelope` (python_schemas.py). -/
structure EventEnvelope where
  app_id : String := "CBC-Agent"
  schema_version : String := "1.0.0"
  event_type : String
  ts : String
  session_id : String
  guest_pseudonymous_id : String
  device : DeviceInfo
  app_version : String
  consent_flags : ConsentFlags
  ip_raw : Option String := Option.none
deriving Repr, DecidableEq

/-- `ConsentFlags.dict()`. -/
def consentFlagsDict (c : ConsentFlags) : List (String × PyVal) :=
  [("analytics", .pbool c.analytics),
   ("marketing", match c.marketing with | some b => .pbool b | Option.none => .none),
   ("functional", .pbool c.functional)]

/-- `DeviceInfo.dict()`. -/
def deviceDict (d : DeviceInfo) : List (String × PyVal) :=
  [("type", .str d.type_), ("os", .str d.os),
   ("browser", match d.browser with | some s => .str s | Option.none => .none)]

/-- `EventEnvelope.dict()`: all declared fields in declaration order. -/
def envelopeDict (e : EventEnvelope) : PyVal :=
  .dict
    [("app_id", .str e.app_id), ("schema_version", .str e.schema_version),
     ("event_type", .str e.event_type), ("ts", .str e.ts),
     ("session_id", .str e.session_id),
     ("guest_pseudonymous_id", .str e.guest_pseudonymous_id),
     ("device", .dict (deviceDict e.device)), ("app_version", .str e.app_version),
     ("consent_flags", .dict (consentFlagsDict e.consent_flags)),
     ("ip_raw", match e.ip_raw with | some s => .str s | Option.none => .none)]

/-- A required string field. -/
def asStr : Option PyVal → Option String
  | some (.str s) => some s
  | _ => Option.none

/-- An optional string field (`Optional[str] = None`). -/
def asOptStr : Option PyVal → Option (Option String)
  | Option.none => some Option.none
  | some PyVal.none => some Option.none
  | some (.str s) => some (some s)
  | _ => Option.none

/-- The pydantic boundary parse of an inbound `EventEnvelope` body: required
fields must be present with the right type, `app_id` must be the literal
`"CBC-Agent"`, defaults apply, and unknown fields are ignored (pydantic's
default `extra` behavior). -/
def parseEnvelope (v : PyVal) : Option EventEnvelope :=
  match v with
  | .dict d => do
    let app_id ← match pyLookup d "app_id" with
      | Option.none => some "CBC-Agent"
      | some (.str s) => if s = "CBC-Agent" then some s else Option.none
      | some _ => Option.none
    let schema_version ← match pyLookup d "schema_version" with
      | Option.none => some "1.0.0"
      | some (.str s) => some s
      | some _ => Option.none
    let event_type ← asStr (pyLookup d "event_type")
    let ts ← asStr (pyLookup d "ts")
    let session_id ← asStr (pyLookup d "session_id")
    let guest_id ← asStr (pyLookup d "guest_pseudonymous_id")
    let device ← match pyLookup d "device" with
      | some (.dict dd) => do
        let t ← asStr (pyLookup dd "type")
        if !(["desktop", "mobile", "tablet"].contains t) then failure
        let os ← asStr (pyLookup dd "os")
        let browser ← asOptStr (pyLookup dd "browser")
        pure (⟨t, os, browser⟩ : DeviceInfo)
      | _ => Option.none
    let app_version ← asStr (pyLookup d "app_version")
    let consent ← match pyLookup d "consent_flags" with
      | some (.dict cd) => do
        let a ← match pyLookup cd "analytics" with
          | some (.pbool b) => some b
          | _ => Option.none
        let m ← match pyLookup cd "marketing" with
          | Option.none => some Option.none
          | some PyVal.none => some Option.none
          | some (.pbool b) => some (some b)
          | _ => Option.none
        let f ← match pyLookup cd "functional" with
          | Option.none => some true
          | some (.pbool b) => some b
          | _ => Option.none
        pure (⟨a, m, f⟩ : ConsentFlags)
      | _ => Option.none
    let ip_raw ← asOptStr (pyLookup d "ip_raw")
    pure
      { app_id := app_id, schema_version := schema_version,
        event_type := event_type, ts := ts, session_id := session_id,
        guest_pseudonymous_id := guest_id, device := device,
        app_version := app_version, consent_flags := consent, ip_raw := ip_raw }
  | _ => Option.none

/-- The environment configuration of `main.py`, with its defaults. -/
structure Config where
  collect_pii : Bool := false
  store_raw_ip : Bool := false
  source_app : String := "CBC-Agent"
  hmac_secret : String := "change-me-in-production"
  ip_salt : String := "rotate-quarterly"

/-- The default configuration (no environment overrides). -/
def cfgDefault : Config := {}

/-- Outcome of the `/ingest/event` handler, mirroring the source's four
`return`/`raise` forms: a propagated `HTTPException`, the DNT response
`{"status": "ok", "dnt": True}`, the no-consent response
`{"status": "ok", "consent": False}`, or the stored-event response.  The
last two are unreachable in the program (the consent gate raises first). -/
inductive IngestResult where
  | http (status : Nat) (detail : String)
  | okDnt
  | okNoConsent
  | okStored (record : PyVal)
deriving Repr

/-- An exception escaping the `try` body of `ingest_event`: a raised
`HTTPException` (status, detail), or the `AttributeError` raised by
`validate_consent` when handed a pydantic model instead of a dict. -/
inductive PyExc where
  | httpExc (status : Nat) (detail : String)
  | attributeError (msg : String)
deriving Repr, DecidableEq

/-- The `try` body of `ingest_event` (main.py).  Raising is `Except.error`;
the second component lists the records handed to `db.store_event` (the
persistence collaborator).  The geo collaborator is the function argument
`geo`; `received_at` stands for `datetime.utcnow().isoformat()`.

The consent gate at main.py:120 calls
`validate_consent(envelope.consent_flags)` on the pydantic `ConsentFlags`
**instance** itself — not on a dict — and `validate_consent` (privacy.py)
immediately calls `.get("analytics", False)`, a method pydantic `BaseModel`
does not define.  The call therefore raises `AttributeError` on every
request that reaches it, before the gate can return and before any store;
the code below that line (the no-consent response, the assembled
`event_data`, `db.store_event`) is unreachable and hence absent here. -/
def ingestBody (cfg : Config) (env : EventEnvelope) (dntHeader : Option String)
    (clientHost : String) (geo : String → Option (List (String × PyVal)))
    (receivedAt : String) : Except PyExc (IngestResult × List PyVal) :=
  if env.app_id ≠ cfg.source_app then .error (.httpExc 400 "Invalid app_id")
  else if dntHeader = some "1" then .ok (.okDnt, [])
  else
    let client_ip := match env.ip_raw with
      | some s => if s = "" then clientHost else s
      | Option.none => clientHost
    let _ip_data : Option (List (String × PyVal)) :=
      if client_ip ≠ "" && !cfg.store_raw_ip then
        let base := process_ip_data client_ip cfg.ip_salt
        some (match geo client_ip with
          | some g => base ++ g
          | Option.none => base)
      else Option.none
    .error (.attributeError "'ConsentFlags' object has no attribute 'get'")

/-- `ingest_event` (main.py): the `try` body under the blanket
`except Exception` handler, which turns every escaping exception —
`HTTPException` included, since it subclasses `Exception`, and the consent
gate's `AttributeError` — into `HTTPException(500, "Internal server error")`. -/
def ingest_event (cfg : Config) (env : EventEnvelope) (dntHeader : Option String)
    (clientHost : String) (geo : String → Option (List (String × PyVal)))
    (receivedAt : String) : IngestResult × List PyVal :=
  match ingestBody cfg env dntHeader clientHost geo receivedAt with
  | .ok r => r
  | .error _ => (.http 500 "Internal server error", [])

/-!
### Webhook authentication

`verify_webhook_signature` lives in `app/webhooks.py`, which is not among
the sources — only its caller (`receive_webhook` in main.py) and the
sender side (`generate_webhook_signature` in `scripts/test_integration.py`,
which signs `json.dumps(payload, sort_keys=True)` with HMAC-SHA256) are.
The verifier below is modelled from the spec, §4.5.
-/

/-- Entry order on dict entries: by key, lexicographically. -/
def keyLe (a b : String × PyVal) : Prop := a.1 ≤ b.1

instance : DecidableRel keyLe := fun a b => inferInstanceAs (Decidable (a.1 ≤ b.1))

/-- Sort dict entries by key (`sort_keys=True`). -/
def sortEntries (es : List (String × PyVal)) : List (String × PyVal) :=
  es.insertionSort keyLe

mutual

/-- Sort every dict of a value by key, recursively. -/
def sortPy : PyVal → PyVal
  | .dict es => .dict (sortEntries (sortPyEntries es))
  | .list xs => .list (sortPyList xs)
  | v => v

/-- `sortPy` on list items. -/
def sortPyList : List PyVal → List PyVal
  | [] => []
  | x :: xs => sortPy x :: sortPyList xs

/-- `sortPy` on dict entry values. -/
def sortPyEntries : List (String × PyVal) → List (String × PyVal)
  | [] => []
  | (k, v) :: rest => (k, sortPy v) :: sortPyEntries rest

end

mutual

/-- JSON serialization with Python's default separators (`json.dumps`);
string escaping is not needed for the payloads canonicalized here. -/
def jsonSer : PyVal → String
  | .none => "null"
  | .pbool b => if b then "true" else "false"
  | .pint n => toString n
  | .str s => "\"" ++ s ++ "\""
  | .list xs => "[" ++ String.intercalate ", " (jsonSerList xs) ++ "]"
  | .dict es => "\x7b" ++ String.intercalate ", " (jsonSerEntries es) ++ "\x7d"

/-- `jsonSer` on list items. -/
def jsonSerList : List PyVal → List String
  | [] => []
  | x :: xs => jsonSer x :: jsonSerList xs

/-- `jsonSer` on dict entries. -/
def jsonSerEntries : List (String × PyVal) → List String
  | [] => []
  | (k, v) :: rest => ("\"" ++ k ++ "\": " ++ jsonSer v) :: jsonSerEntries rest

end

/-- Modelled from the spec: canonicalization of §4.5 — "a stable
serialization with lexicographically sorted map keys", the form
`json.dumps(payload, sort_keys=True)` that the sender signs. -/
def canonicalBytes (p : PyVal) : List Nat := strBytes (jsonSer (sortPy p))

/-- The sender's signature (`generate_webhook_signature`,
test_integration.py): HMAC-SHA256 of the canonical bytes, lowercase hex,
as its byte sequence. -/
def signPayload (secret : List Nat) (p : PyVal) : List Nat :=
  strBytes (hexOfBytes (hmacSha256 secret (canonicalBytes p)))

/-- Modelled from the spec: §4.5 constant-time byte comparison — accumulate
the OR of the XOR of every byte pair instead of short-circuiting
(`hmac.compare_digest` shape). -/
def ctEq (a b : List Nat) : Bool :=
  (a.length == b.length) &&
    ((List.zipWith (fun x y => x ^^^ y) a b).foldl (fun acc d => acc ||| d) 0 == 0)

/-- Modelled from the spec: `verify_webhook_signature(payload, signature,
secret)` (§4.5) — recompute the HMAC over the canonical payload bytes and
compare to the provided signature in constant time; failures are `false`,
never an exception. -/
def verify_webhook_signature (payload : PyVal) (signature : List Nat)
    (secret : List Nat) : Bool :=
  ctEq (signPayload secret payload) signature

/-- Flip one byte of a byte sequence (XOR with a mask at an index). -/
def flipAt (bs : List Nat) (i : Nat) (mask : Nat) : List Nat :=
  bs.set i (bs.getD i 0 ^^^ mask)

/-!
### Helper lemmas
-/

theorem lor_eq_zero_iff (x y : Nat) : x ||| y = 0 ↔ x = 0 ∧ y = 0 := by
  constructor
  · intro h
    constructor
    · apply Nat.zero_of_testBit_eq_false
      intro i
      have := congrArg (fun n => Nat.testBit n i) h
      simp [Nat.testBit_lor] at this
      exact this.1
    · apply Nat.zero_of_testBit_eq_false
      intro i
      have := congrArg (fun n => Nat.testBit n i) h
      simp [Nat.testBit_lor] at this
      exact this.2
  · rintro ⟨rfl, rfl⟩; rfl

theorem foldl_or_eq_zero (l : List Nat) (acc : Nat) :
    (l.foldl (fun a d => a ||| d) acc = 0) ↔ (acc = 0 ∧ ∀ x ∈ l, x = 0) := by
  induction l generalizing acc with
  | nil => simp
  | cons x xs ih => simp [ih, lor_eq_zero_iff]; tauto

theorem eq_of_len_of_xor_zero :
    ∀ (a b : List Nat), a.length = b.length →
      (∀ d ∈ List.zipWith (fun x y => x ^^^ y) a b, d = 0) → a = b
  | [], [], _, _ => rfl
  | [], _ :: _, h, _ => by simp at h
  | _ :: _, [], h, _ => by simp at h
  | x :: xs, y :: ys, h, hall => by
    have hx : x = y := Nat.xor_eq_zero.mp (hall _ (by simp))
    have ht : xs = ys :=
      eq_of_len_of_xor_zero xs ys (by simpa using h) (fun d hd => hall d (by simp [hd]))
    rw [hx, ht]

/-- `ctEq` decides equality of byte lists. -/
theorem ctEq_iff (a b : List Nat) : ctEq a b = true ↔ a = b := by
  unfold ctEq
  rw [Bool.and_eq_true, beq_iff_eq, beq_iff_eq, foldl_or_eq_zero]
  constructor
  · rintro ⟨hlen, -, hall⟩
    exact eq_of_len_of_xor_zero a b hlen hall
  · rintro rfl
    refine ⟨rfl, rfl, fun d hd => ?_⟩
    rcases List.mem_iff_get.mp hd with ⟨i, hi⟩
    rw [← hi]
    simp [List.get_eq_getElem, List.getElem_zipWith]

theorem flipAt_ne (s : List Nat) (i m : Nat) (hi : i < s.length) (hm : m ≠ 0) :
    flipAt s i m ≠ s := by
  intro h
  have h' : s.set i (s.getD i 0 ^^^ m) = s := h
  have h2 : (s.set i (s.getD i 0 ^^^ m)).getD i 0 = s.getD i 0 ^^^ m := by
    simp [List.getD_eq_getElem?_getD, List.getElem?_set_self (by simpa using hi)]
  rw [h'] at h2
  have h3 : s.getD i 0 ^^^ 0 = s.getD i 0 ^^^ m := by simpa using h2
  exact hm (Nat.xor_right_inj.mp h3).symm

/-!
Lengths of the digests.
-/

theorem wordBytes_length (w : Nat) : (wordBytes w).length = 4 := rfl

theorem flatMap_wordBytes_length (l : List Nat) : (l.flatMap wordBytes).length = 4 * l.length := by
  induction l with
  | nil => rfl
  | cons x xs ih => simp [List.flatMap_cons, ih, wordBytes_length]; ring

theorem shaRound_length (st : List Nat) (kw : Nat × Nat) :
    (shaRound st kw).length = st.length := by
  unfold shaRound
  split
  · rename_i a b c d e f g h heq
    simp
  · rfl

theorem foldl_shaRound_length (l : List (Nat × Nat)) (st : List Nat) :
    (l.foldl shaRound st).length = st.length := by
  induction l generalizing st with
  | nil => rfl
  | cons x xs ih => simp [List.foldl_cons, ih, shaRound_length]

theorem shaCompress_length (st block : List Nat) (h : st.length = 8) :
    (shaCompress st block).length = 8 := by
  unfold shaCompress
  simp [List.length_zip, foldl_shaRound_length, h]

theorem foldl_shaCompress_length (blocks : List (List Nat)) (st : List Nat)
    (h : st.length = 8) : (blocks.foldl shaCompress st).length = 8 := by
  induction blocks generalizing st with
  | nil => exact h
  | cons b bs ih => exact ih _ (shaCompress_length _ _ h)

theorem sha256_length (msg : List Nat) : (sha256 msg).length = 32 := by
  unfold sha256
  rw [flatMap_wordBytes_length,
    foldl_shaCompress_length (toBlocks (shaPad msg)) shaInit (by rfl)]

theorem hmacSha256_length (key msg : List Nat) : (hmacSha256 key msg).length = 32 := by
  unfold hmacSha256
  exact sha256_length _

theorem hexOfBytes_length (bs : List Nat) : (hexOfBytes bs).length = 2 * bs.length := by
  unfold hexOfBytes
  show (bs.flatMap fun b => [hexDigit (b / 16), hexDigit (b % 16)]).length = 2 * bs.length
  induction bs with
  | nil => rfl
  | cons x xs ih => simp [List.flatMap_cons, ih]; ring

theorem strBytes_length (s : String) : (strBytes s).length = s.length := by
  unfold strBytes
  rw [List.length_map]
  rfl

/-- `hash_ip` always produces the 64-character hex digest. -/
theorem hash_ip_length (ip salt : String) : (hash_ip ip salt).length = 64 := by
  unfold hash_ip hashBody
  show (hexOfBytes (hmacSha256 (strBytes salt) (strBytes ip))).length = 64
  rw [hexOfBytes_length, hmacSha256_length]

theorem hash_ip_ne_empty (ip salt : String) : hash_ip ip salt ≠ "" := by
  intro h
  have := hash_ip_length ip salt
  rw [h] at this
  simp at this

/-!
Key-sorting is insertion-order independent on key-unique dicts.
-/

/-- Strict entry order by key. -/
def keyLt (a b : String × PyVal) : Prop := a.1 < b.1

instance : IsTotal (String × PyVal) keyLe := ⟨fun a b => le_total a.1 b.1⟩

instance : IsTrans (String × PyVal) keyLe := ⟨fun _ _ _ h1 h2 => le_trans h1 h2⟩

instance : IsAntisymm (String × PyVal) keyLt :=
  ⟨fun _ _ h1 h2 => absurd (lt_trans h1 h2) (lt_irrefl _)⟩

theorem sortEntries_perm (es : List (String × PyVal)) : (sortEntries es).Perm es :=
  List.perm_insertionSort keyLe es

theorem sortEntries_sorted (es : List (String × PyVal)) :
    (sortEntries es).Pairwise keyLe :=
  List.sorted_insertionSort keyLe es

theorem sortEntries_eq_of_perm (l1 l2 : List (String × PyVal)) (hp : l1.Perm l2)
    (hnd : (l2.map Prod.fst).Nodup) : sortEntries l1 = sortEntries l2 := by
  have hperm : (sortEntries l1).Perm (sortEntries l2) :=
    ((sortEntries_perm l1).trans hp).trans (sortEntries_perm l2).symm
  have hsym : ∀ {a b : String × PyVal}, a.1 ≠ b.1 → b.1 ≠ a.1 :=
    fun h e => h e.symm
  have hne2 : l2.Pairwise (fun a b => a.1 ≠ b.1) := List.pairwise_map.mp hnd
  have hstrict : ∀ l' : List (String × PyVal), l'.Perm l2 →
      l'.Pairwise keyLe → l'.Pairwise keyLt := by
    intro l' hp' hle
    have hne : l'.Pairwise (fun a b => a.1 ≠ b.1) :=
      (hp'.pairwise_iff (fun h => hsym h)).mpr hne2
    exact (hle.and hne).imp (fun h => lt_of_le_of_ne h.1 h.2)
  have hs1 : (sortEntries l1).Pairwise keyLt :=
    hstrict _ ((sortEntries_perm l1).trans hp) (sortEntries_sorted l1)
  have hs2 : (sortEntries l2).Pairwise keyLt :=
    hstrict _ (sortEntries_perm l2) (sortEntries_sorted l2)
  exact List.eq_of_perm_of_sorted hperm hs1 hs2

theorem sortPyEntries_eq_map (es : List (String × PyVal)) :
    sortPyEntries es = es.map (fun p => (p.1, sortPy p.2)) := by
  induction es with
  | nil => rfl
  | cons p rest ih =>
    cases p with
    | mk k v => simp [sortPyEntries, ih]

theorem signPayload_perm (secret : List Nat) (es es' : List (String × PyVal))
    (hp : es'.Perm es) (hnd : (es.map Prod.fst).Nodup) :
    signPayload secret (.dict es') = signPayload secret (.dict es) := by
  unfold signPayload canonicalBytes
  suffices h : sortPy (.dict es') = sortPy (.dict es) by rw [h]
  show PyVal.dict (sortEntries (sortPyEntries es')) =
    PyVal.dict (sortEntries (sortPyEntries es))
  rw [sortPyEntries_eq_map, sortPyEntries_eq_map]
  congr 1
  apply sortEntries_eq_of_perm
  · exact hp.map _
  · rw [List.map_map]
    have : (Prod.fst ∘ fun p : String × PyVal => (p.1, sortPy p.2)) = Prod.fst := by
      funext p
      rfl
    rw [this]
    exact hnd

/-- The signature is always the 64-byte hex digest. -/
theorem signPayload_length (secret : List Nat) (p : PyVal) :
    (signPayload secret p).length = 64 := by
  unfold signPayload
  rw [strBytes_length, hexOfBytes_length, hmacSha256_length]

/-- C3: For a fixed secret, a payload signed with the verifier's own
canonicalization (stable serialization, lexicographically sorted keys) and
HMAC-SHA256 verifies as true; flipping any single byte of the supplied
signature makes verification return false; and a payload dict with the same
entries in a different insertion order yields the identical signature. -/
theorem webhook_verification_spec (secret : List Nat) (p : PyVal)
    (es es' : List (String × PyVal)) (i m : Nat)
    (hi : i < 64) (hm : m ≠ 0) (_hmB : m < 256)
    (hperm : es'.Perm es) (hkeys : (es.map Prod.fst).Nodup) :
    verify_webhook_signature p (signPayload secret p) secret = true ∧
    verify_webhook_signature p (flipAt (signPayload secret p) i m) secret = false ∧
    signPayload secret (.dict es') = signPayload secret (.dict es) := by
  refine ⟨(ctEq_iff _ _).mpr rfl, ?_, signPayload_perm secret es es' hperm hkeys⟩
  cases hv : verify_webhook_signature p (flipAt (signPayload secret p) i m) secret with
  | false => rfl
  | true =>
    exfalso
    have heq := (ctEq_iff _ _).mp hv
    have hlen : i < (signPayload secret p).length := by rw [signPayload_length]; exact hi
    exact flipAt_ne _ _ _ hlen hm heq.symm

/-- The webhook payload used by the integration test. -/
def wPayload : List (String × PyVal) := [("request_id", .str "r1"), ("priority", .str "high")]

/-- The same payload map built in the opposite insertion order. -/
def wPayloadRev : List (String × PyVal) := [("priority", .str "high"), ("request_id", .str "r1")]

/-- The configured webhook secret, as bytes. -/
def wSecret : List Nat := strBytes "change-me-in-production"

/-- Witness for C3 at the integration-test payload and secret. -/
theorem webhook_verification_spec_witness :
    verify_webhook_signature (.dict wPayload) (signPayload wSecret (.dict wPayload))
      wSecret = true ∧
    verify_webhook_signature (.dict wPayload)
      (flipAt (signPayload wSecret (.dict wPayload)) 0 1) wSecret = false ∧
    signPayload wSecret (.dict wPayloadRev) = signPayload wSecret (.dict wPayload) :=
  webhook_verification_spec wSecret (.dict wPayload) wPayload wPayloadRev 0 1
    (by decide) (by decide) (by decide) (List.Perm.swap _ _ _) (by decide)

/-!
### The IP anonymizer is total (C8, C9)
-/

theorem fmtIPv4_ne_empty (n : Nat) : fmtIPv4 n ≠ "" := by
  intro h
  have h2 := congrArg String.length h
  unfold fmtIPv4 at h2
  simp only [String.length_append] at h2
  have hdot : ("." : String).length = 1 := rfl
  have hnil : ("" : String).length = 0 := rfl
  rw [hdot, hnil] at h2
  omega

theorem joinSep_colon_ne (xs : List String) (h : 2 ≤ xs.length) :
    joinSep ":" xs ≠ "" := by
  match xs, h with
  | x :: y :: rest, _ =>
    show x ++ ":" ++ joinSep ":" (y :: rest) ≠ ""
    intro he
    have h2 := congrArg String.length he
    simp only [String.length_append] at h2
    have hcol : (":" : String).length = 1 := rfl
    have hnil : ("" : String).length = 0 := rfl
    rw [hcol, hnil] at h2
    omega

theorem fmtIPv6_ne_empty (n : Nat) : fmtIPv6 n ≠ "" := by
  unfold fmtIPv6
  dsimp only
  split
  · apply joinSep_colon_ne
    simp only [List.length_append, List.length_take, List.length_drop,
      List.length_map, List.length_range]
    split <;> split <;> simp only [List.length_cons, List.length_nil] <;> omega
  · apply joinSep_colon_ne
    simp [List.length_map, List.length_range]

/-- `truncate_ip` never returns the empty string: either a formatted
network address or the `"0.0.0.0"` fallback. -/
theorem truncate_ip_ne_empty (s : String) : truncate_ip s ≠ "" := by
  unfold truncate_ip truncBody
  cases hp : parseIp s with
  | none => decide
  | some a =>
    cases a with
    | v4 n =>
      show fmtIPv4 (n / 256 * 256) ≠ ""
      exact fmtIPv4_ne_empty _
    | v6 n =>
      show fmtIPv6 (n / 2 ^ 80 * 2 ^ 80) ≠ ""
      exact fmtIPv6_ne_empty _

/-- C9: `process_ip_data` is total: for every pair of input strings it
returns a record with both the truncated-prefix string and the hash string;
the truncated prefix is never empty (parse failures take the caught
fallback) and the hash is always the 64-character digest — no exception
escapes either helper. -/
theorem process_ip_data_total (s salt : String) :
    process_ip_data s salt =
      [("ip_trunc", PyVal.str (truncate_ip s)), ("ip_hash", PyVal.str (hash_ip s salt))] ∧
    truncate_ip s ≠ "" ∧ (hash_ip s salt).length = 64 :=
  ⟨rfl, truncate_ip_ne_empty s, hash_ip_length s salt⟩

/-- C8 counterexample: `"not-an-ip"` parses as neither IPv4 nor IPv6, yet
the salted hash is not the empty string the claim requires — `hash_ip`
still returns the full HMAC hex digest of the unparseable input. -/
theorem unparseable_hash_nonempty_ce :
    parseIp "not-an-ip" = Option.none ∧
    hash_ip "not-an-ip" "rotate-quarterly" ≠ "" :=
  ⟨rfl, hash_ip_ne_empty _ _⟩

/-- C8 (amended): for every input that parses as neither an IPv4 nor an
IPv6 address, the truncated prefix falls back to the `"0.0.0.0"` sentinel
and the salted hash is the (non-empty) HMAC-SHA256 hex digest of the raw
input string; no error escapes and the record is still produced. -/
theorem truncate_fallback_on_parse_failure (s salt : String)
    (hs : parseIp s = Option.none) :
    truncate_ip s = "0.0.0.0" ∧
    hash_ip s salt = hexOfBytes (hmacSha256 (strBytes salt) (strBytes s)) ∧
    hash_ip s salt ≠ "" ∧
    process_ip_data s salt =
      [("ip_trunc", .str "0.0.0.0"), ("ip_hash", .str (hash_ip s salt))] := by
  have ht : truncate_ip s = "0.0.0.0" := by
    unfold truncate_ip truncBody
    rw [hs]
  refine ⟨ht, rfl, hash_ip_ne_empty s salt, ?_⟩
  unfold process_ip_data
  rw [ht]

/-- Witness for C8 at a concrete unparseable input. -/
theorem truncate_fallback_on_parse_failure_witness :
    parseIp "definitely-not-an-ip" = Option.none ∧
    (truncate_ip "definitely-not-an-ip" = "0.0.0.0" ∧
     hash_ip "definitely-not-an-ip" "rotate-quarterly" =
       hexOfBytes (hmacSha256 (strBytes "rotate-quarterly")
         (strBytes "definitely-not-an-ip")) ∧
     hash_ip "definitely-not-an-ip" "rotate-quarterly" ≠ "" ∧
     process_ip_data "definitely-not-an-ip" "rotate-quarterly" =
       [("ip_trunc", .str "0.0.0.0"),
        ("ip_hash", .str (hash_ip "definitely-not-an-ip" "rotate-quarterly"))]) :=
  ⟨rfl, truncate_fallback_on_parse_failure _ _ rfl⟩

/-!
### The ingestion pipeline on concrete envelopes (C1, C2, C4)
-/

mutual

/-- Does the key occur in any dict at any depth of the value? -/
def hasKeyDeep (k : String) : PyVal → Bool
  | .dict es => hasKeyDeepEntries k es
  | .list xs => hasKeyDeepItems k xs
  | _ => false

/-- `hasKeyDeep` over dict entries. -/
def hasKeyDeepEntries (k : String) : List (String × PyVal) → Bool
  | [] => false
  | (k', v) :: rest => k' == k || hasKeyDeep k v || hasKeyDeepEntries k rest

/-- `hasKeyDeep` over list items. -/
def hasKeyDeepItems (k : String) : List PyVal → Bool
  | [] => false
  | v :: rest => hasKeyDeep k v || hasKeyDeepItems k rest

end

/-- The inbound request body of the C1 scenario: full consent, raw client
IP `203.0.113.77`, and a payload string field `email = "a@b.com"`. -/
def c1Body : PyVal := .dict
  [("app_id", .str "CBC-Agent"), ("event_type", .str "page_view"),
   ("ts", .str "2026-01-01T00:00:00Z"), ("session_id", .str "ses_1"),
   ("guest_pseudonymous_id", .str "guest_1"),
   ("device", .dict [("type", .str "desktop"), ("os", .str "ios")]),
   ("app_version", .str "1.0.0"),
   ("consent_flags", .dict [("analytics", .pbool true), ("marketing", .pbool false)]),
   ("ip_raw", .str "203.0.113.77"),
   ("email", .str "a@b.com")]

/-- What the pydantic boundary makes of `c1Body`. -/
def c1Env : EventEnvelope :=
  { app_id := "CBC-Agent", schema_version := "1.0.0", event_type := "page_view",
    ts := "2026-01-01T00:00:00Z", session_id := "ses_1",
    guest_pseudonymous_id := "guest_1",
    device := { type_ := "desktop", os := "ios", browser := Option.none },
    app_version := "1.0.0",
    consent_flags := { analytics := true, marketing := some false, functional := true },
    ip_raw := some "203.0.113.77" }

/-- C1: on the claim's end-to-end scenario the pipeline stores nothing at
all.  The consent gate call `validate_consent(envelope.consent_flags)`
raises `AttributeError` (pydantic models have no `.get`), the blanket
`except Exception` answers `500 Internal server error`, and zero records
are handed to the persistence collaborator — so no stored record with the
claimed `[EMAIL_REDACTED]` payload field, `203.0.113.0/24` prefix, and
non-empty hash exists.  Moreover the payload field `email` is already
dropped at the schema boundary (no `email` key at any depth of
`envelope.dict()`, so nothing for the never-invoked `redact_pii` to
rewrite), and `truncate_ip` would yield `"203.0.113.0"`, not the claimed
`"203.0.113.0/24"`. -/
theorem ingest_no_redaction_c1 :
    parseEnvelope c1Body = some c1Env ∧
    ingestBody cfgDefault c1Env Option.none "198.51.100.9"
      (fun _ => Option.none) "2026-01-01T00:00:01Z" =
      .error (.attributeError "'ConsentFlags' object has no attribute 'get'") ∧
    ingest_event cfgDefault c1Env Option.none "198.51.100.9"
      (fun _ => Option.none) "2026-01-01T00:00:01Z" =
      (.http 500 "Internal server error", []) ∧
    hasKeyDeep "email" (envelopeDict c1Env) = false ∧
    truncate_ip "203.0.113.77" ≠ "203.0.113.0/24" ∧
    hash_ip "203.0.113.77" "rotate-quarterly" ≠ "" := by
  refine ⟨rfl, rfl, rfl, ?_, by decide, hash_ip_ne_empty _ _⟩
  simp [c1Env, envelopeDict, deviceDict, consentFlagsDict,
    hasKeyDeep, hasKeyDeepEntries, hasKeyDeepItems]

/-- The envelope of the C2 scenario: consented event carrying a raw client
IP, processed with raw-IP storage mode disabled. -/
def c2Env : EventEnvelope :=
  { app_id := "CBC-Agent", schema_version := "1.0.0", event_type := "page_view",
    ts := "2026-02-02T00:00:00Z", session_id := "ses_2",
    guest_pseudonymous_id := "guest_2",
    device := { type_ := "mobile", os := "android", browser := Option.none },
    app_version := "1.0.0",
    consent_flags := { analytics := true, marketing := Option.none, functional := true },
    ip_raw := some "203.0.113.77" }

/-- Every `ok` outcome of the `try` body is the storeless DNT response. -/
theorem ingestBody_ok_shape (cfg : Config) (env : EventEnvelope)
    (dnt : Option String) (host : String)
    (geo : String → Option (List (String × PyVal))) (now : String)
    (r : IngestResult × List PyVal)
    (h : ingestBody cfg env dnt host geo now = .ok r) : r = (.okDnt, []) := by
  unfold ingestBody at h
  split at h
  · exact Except.noConfusion h
  · split at h
    · injection h with h'
      exact h'.symm
    · exact Except.noConfusion h

/-- C2: no record is ever handed to the persistence collaborator, for any
envelope, configuration, headers, or collaborator behavior: the app-id
mismatch and DNT paths return without storing, and every request that gets
past them dies in the consent gate's `AttributeError` with a 500 response
before `db.store_event`.  In particular, with raw-IP storage disabled the
raw client IP is never passed onward past the anonymization step — the
claimed invariant holds, vacuously. -/
theorem ingest_raw_ip_never_stored_c2 (cfg : Config) (env : EventEnvelope)
    (dnt : Option String) (host : String)
    (geo : String → Option (List (String × PyVal))) (now : String) :
    (ingest_event cfg env dnt host geo now).2 = [] := by
  unfold ingest_event
  cases hb : ingestBody cfg env dnt host geo now with
  | error e => rfl
  | ok r =>
    show r.2 = []
    rw [ingestBody_ok_shape cfg env dnt host geo now r hb]

/-- An envelope whose app identifier differs from the configured source. -/
def c4Env : EventEnvelope :=
  { app_id := "InvalidApp", schema_version := "1.0.0", event_type := "page_view",
    ts := "2026-03-03T00:00:00Z", session_id := "ses_4",
    guest_pseudonymous_id := "guest_4",
    device := { type_ := "desktop", os := "macos", browser := Option.none },
    app_version := "1.0.0",
    consent_flags := { analytics := true, marketing := Option.none, functional := true },
    ip_raw := Option.none }

/-- C4: on an app-id mismatch the `try` body does raise
`HTTPException(400, "Invalid app_id")`, but the blanket `except Exception`
of `ingest_event` catches it (`HTTPException` subclasses `Exception`) and
the endpoint answers `500 Internal server error` instead of the claimed
caller-facing 400. -/
theorem ingest_invalid_app_id_500_c4 :
    ingestBody cfgDefault c4Env Option.none "198.51.100.9"
      (fun _ => Option.none) "2026-03-03T00:00:01Z" =
      .error (.httpExc 400 "Invalid app_id") ∧
    ingest_event cfgDefault c4Env Option.none "198.51.100.9"
      (fun _ => Option.none) "2026-03-03T00:00:01Z" =
      (.http 500 "Internal server error", []) :=
  ⟨rfl, rfl⟩

/-!
### The consent gate (C5)
-/

/-- C5: the consent gate itself (`validate_consent`, on the dicts its
signature declares) is false when the `analytics` field is absent, `None`,
or `False`, and true when it is `True` — but the pipeline never reports the
claimed Skipped(no_consent) outcome: `ingest_event` hands the gate the
pydantic `ConsentFlags` instance, whose missing `.get` raises
`AttributeError`, and every envelope that reaches the gate (analytics
consent off included) gets `500 Internal server error` with zero
persistence calls instead of `{"status": "ok", "consent": False}`. -/
theorem consent_gate_c5 (d d2 : List (String × PyVal)) (cfg : Config)
    (env : EventEnvelope) (dnt : Option String) (host : String)
    (geo : String → Option (List (String × PyVal))) (now : String)
    (hd : pyLookup d "analytics" = Option.none ∨
      pyLookup d "analytics" = some PyVal.none ∨
      pyLookup d "analytics" = some (.pbool false))
    (hd2 : pyLookup d2 "analytics" = some (.pbool true))
    (happ : env.app_id = cfg.source_app)
    (hdnt : dnt ≠ some "1")
    (hgate : env.consent_flags.analytics = false) :
    pyTruthy (validate_consent d) = false ∧
    pyTruthy (validate_consent d2) = true ∧
    ingestBody cfg env dnt host geo now =
      .error (.attributeError "'ConsentFlags' object has no attribute 'get'") ∧
    ingest_event cfg env dnt host geo now =
      (.http 500 "Internal server error", []) ∧
    ingest_event cfg env dnt host geo now ≠ (.okNoConsent, []) := by
  have hlookup : ∀ (l : List (String × PyVal)) (v : PyVal),
      pyLookup l "analytics" = some v → validate_consent l = v := by
    intro l v hv
    unfold validate_consent pyGet
    unfold pyLookup at hv
    cases hf : List.find? (fun e => e.1 == "analytics") l with
    | none => rw [hf] at hv; simp at hv
    | some e =>
      rw [hf] at hv
      simp at hv
      exact hv
  have hbody : ingestBody cfg env dnt host geo now =
      .error (.attributeError "'ConsentFlags' object has no attribute 'get'") := by
    unfold ingestBody
    rw [if_neg (by simp [happ]), if_neg hdnt]
  have hresp : ingest_event cfg env dnt host geo now =
      (.http 500 "Internal server error", []) := by
    unfold ingest_event
    rw [hbody]
  refine ⟨?_, ?_, hbody, hresp, ?_⟩
  · rcases hd with h | h | h
    · unfold validate_consent pyGet
      unfold pyLookup at h
      cases hf : List.find? (fun e => e.1 == "analytics") d with
      | none => rfl
      | some e => rw [hf] at h; simp at h
    · rw [hlookup d _ h]; rfl
    · rw [hlookup d _ h]; rfl
  · rw [hlookup d2 _ hd2]; rfl
  · rw [hresp]
    intro hcontra
    exact IngestResult.noConfusion (congrArg Prod.fst hcontra)

/-- An envelope whose consent declaration has `analytics = False`. -/
def c5Env : EventEnvelope :=
  { app_id := "CBC-Agent", schema_version := "1.0.0", event_type := "page_view",
    ts := "2026-04-04T00:00:00Z", session_id := "ses_5",
    guest_pseudonymous_id := "guest_5",
    device := { type_ := "tablet", os := "ipados", browser := Option.none },
    app_version := "1.0.0",
    consent_flags := { analytics := false, marketing := some true, functional := true },
    ip_raw := some "203.0.113.5" }

/-- Witness for C5 at concrete consent dicts and a concrete envelope. -/
theorem consent_gate_c5_witness :
    pyTruthy (validate_consent []) = false ∧
    pyTruthy (validate_consent [("analytics", .pbool true)]) = true ∧
    ingestBody cfgDefault c5Env Option.none "198.51.100.9"
      (fun _ => Option.none) "2026-04-04T00:00:01Z" =
      .error (.attributeError "'ConsentFlags' object has no attribute 'get'") ∧
    ingest_event cfgDefault c5Env Option.none "198.51.100.9"
      (fun _ => Option.none) "2026-04-04T00:00:01Z" =
      (.http 500 "Internal server error", []) ∧
    ingest_event cfgDefault c5Env Option.none "198.51.100.9"
      (fun _ => Option.none) "2026-04-04T00:00:01Z" ≠ (.okNoConsent, []) :=
  consent_gate_c5 [] [("analytics", .pbool true)] cfgDefault c5Env Option.none
    "198.51.100.9" (fun _ => Option.none) "2026-04-04T00:00:01Z"
    (Or.inl rfl) rfl rfl (by decide) rfl

/-!
### Structured redaction properties (C6, C10)
-/

mutual

/-- No list occurs directly inside a list, anywhere in the value. -/
def noListList : PyVal → Bool
  | .dict es => noListListEntries es
  | .list xs => noListListItems xs
  | _ => true

/-- `noListList` over dict entries. -/
def noListListEntries : List (String × PyVal) → Bool
  | [] => true
  | (_, v) :: rest => noListList v && noListListEntries rest

/-- `noListList` over list items: no item may itself be a list. -/
def noListListItems : List PyVal → Bool
  | [] => true
  | v :: rest =>
    (match v with | .list _ => false | _ => true) && noListList v &&
      noListListItems rest

end

mutual

/-- Every dict entry under a sensitive key, at any depth, holds exactly the
`'[REDACTED]'` placeholder. -/
def sensClean (fields : List String) : PyVal → Bool
  | .dict es => sensCleanEntries fields es
  | .list xs => sensCleanItems fields xs
  | _ => true

/-- `sensClean` over dict entries. -/
def sensCleanEntries (fields : List String) : List (String × PyVal) → Bool
  | [] => true
  | (k, v) :: rest =>
    (if fields.contains k then
      match v with
      | .str s => s == "[REDACTED]"
      | _ => false
     else sensClean fields v) && sensCleanEntries fields rest

/-- `sensClean` over list items. -/
def sensCleanItems (fields : List String) : List PyVal → Bool
  | [] => true
  | v :: rest => sensClean fields v && sensCleanItems fields rest

end

mutual

theorem redact_json_sensClean (fields : List String)
    (es : List (String × PyVal)) (h : noListListEntries es = true) :
    sensCleanEntries fields (redact_json es fields) = true := by
  match es, h with
  | [], _ => simp [redact_json, sensCleanEntries]
  | (k, v) :: rest, h =>
    have hsplit : noListList v = true ∧ noListListEntries rest = true := by
      simpa [noListListEntries] using h
    have htail := redact_json_sensClean fields rest hsplit.2
    by_cases hk : k ∈ fields
    · cases v with
      | str s => simp [redact_json, sensCleanEntries, hk, htail]
      | dict d => simp [redact_json, sensCleanEntries, hk, htail]
      | list xs => simp [redact_json, sensCleanEntries, hk, htail]
      | none => simp [redact_json, sensCleanEntries, hk, htail]
      | pbool b => simp [redact_json, sensCleanEntries, hk, htail]
      | pint n => simp [redact_json, sensCleanEntries, hk, htail]
    · cases v with
      | str s => simp [redact_json, sensCleanEntries, sensClean, hk, htail]
      | dict d =>
        have hrec := redact_json_sensClean fields d
          (by simpa [noListList] using hsplit.1)
        simp [redact_json, sensCleanEntries, sensClean, hk, htail, hrec]
      | list xs =>
        have hrec := redactItems_sensClean fields xs
          (by simpa [noListList] using hsplit.1)
        simp [redact_json, sensCleanEntries, sensClean, hk, htail, hrec]
      | none => simp [redact_json, sensCleanEntries, sensClean, hk, htail]
      | pbool b => simp [redact_json, sensCleanEntries, sensClean, hk, htail]
      | pint n => simp [redact_json, sensCleanEntries, sensClean, hk, htail]

theorem redactItems_sensClean (fields : List String)
    (xs : List PyVal) (h : noListListItems xs = true) :
    sensCleanItems fields (redactItems xs fields) = true := by
  match xs, h with
  | [], _ => simp [redactItems, sensCleanItems]
  | v :: rest, h =>
    cases v with
    | str s =>
      have hsplit := h
      simp only [noListListItems, Bool.and_eq_true] at hsplit
      have htail := redactItems_sensClean fields rest hsplit.2
      simp [redactItems, sensCleanItems, sensClean, htail]
    | dict d =>
      have hsplit := h
      simp only [noListListItems, Bool.and_eq_true] at hsplit
      have htail := redactItems_sensClean fields rest hsplit.2
      have hrec := redact_json_sensClean fields d
        (by simpa [noListList] using hsplit.1)
      simp [redactItems, sensCleanItems, sensClean, htail, hrec]
    | list xs' => simp [noListListItems] at h
    | none =>
      have hsplit := h
      simp only [noListListItems, Bool.and_eq_true] at hsplit
      have htail := redactItems_sensClean fields rest hsplit.2
      simp [redactItems, sensCleanItems, sensClean, htail]
    | pbool b =>
      have hsplit := h
      simp only [noListListItems, Bool.and_eq_true] at hsplit
      have htail := redactItems_sensClean fields rest hsplit.2
      simp [redactItems, sensCleanItems, sensClean, htail]
    | pint n =>
      have hsplit := h
      simp only [noListListItems, Bool.and_eq_true] at hsplit
      have htail := redactItems_sensClean fields rest hsplit.2
      simp [redactItems, sensCleanItems, sensClean, htail]

end

/-- C6 counterexample: a map nested inside a list inside a list is returned
untouched — the output equals the input, so the `email` entry keeps its
original value instead of a redaction placeholder. -/
def c6CeIn : List (String × PyVal) :=
  [("a", .list [.list [.dict [("email", .str "a@b.com")]]])]

/-- C6 counterexample theorem: `redact_json` leaves the sensitive `email`
entry of `c6CeIn` unredacted (the whole output equals the input). -/
theorem redact_json_list_in_list_ce :
    redact_json c6CeIn fieldsDefault = c6CeIn ∧
    sensCleanEntries fieldsDefault (redact_json c6CeIn fieldsDefault) = false := by
  constructor
  · simp [c6CeIn, redact_json, redactItems, fieldsDefault]
  · simp [c6CeIn, redact_json, redactItems, fieldsDefault, sensCleanEntries,
      sensClean, sensCleanItems]

/-- C6 (amended): for every finite acyclic structure in which no list
occurs directly inside a list, `redact_json` leaves no entry under a key of
the default sensitive set with anything but the `'[REDACTED]'` placeholder,
at every nesting depth. -/
theorem redact_json_sensitive_redacted (es : List (String × PyVal))
    (h : noListListEntries es = true) :
    sensCleanEntries fieldsDefault (redact_json es fieldsDefault) = true :=
  redact_json_sensClean fieldsDefault es h

/-- Witness input for C6: sensitive keys under a map, a nested map, and a
map inside a list. -/
def c6WitIn : List (String × PyVal) :=
  [("user", .dict [("email", .str "x"), ("note", .str "n")]),
   ("items", .list [.dict [("ssn", .pint 1)], .str "ok", .pint 3]),
   ("name", .dict [("inner", .pint 0)])]

/-- Witness for C6 at a concrete nested structure. -/
theorem redact_json_sensitive_redacted_witness :
    noListListEntries c6WitIn = true ∧
    sensCleanEntries fieldsDefault (redact_json c6WitIn fieldsDefault) = true :=
  ⟨by simp [c6WitIn, noListListEntries, noListList, noListListItems],
   redact_json_sensitive_redacted c6WitIn
     (by simp [c6WitIn, noListListEntries, noListList, noListListItems])⟩

mutual

/-- Shape preservation of one rewritten value: strings may change to any
string, dicts and lists are compared structurally, every other value must
be unchanged. -/
def shapeOkVal (fields : List String) : PyVal → PyVal → Bool
  | .str _, .str _ => true
  | .dict d, .dict d' => shapeOkEntries fields d d'
  | .list xs, .list ys => shapeOkItems fields xs ys
  | .none, .none => true
  | .pbool a, .pbool b => a == b
  | .pint a, .pint b => a == b
  | _, _ => false

/-- Entry lists keep length, key order and key names; values under a
sensitive key are unconstrained, all others preserve shape. -/
def shapeOkEntries (fields : List String) :
    List (String × PyVal) → List (String × PyVal) → Bool
  | [], [] => true
  | (k, v) :: rest, (k', v') :: rest' =>
    k == k' && (if fields.contains k then true else shapeOkVal fields v v') &&
      shapeOkEntries fields rest rest'
  | _, _ => false

/-- Item lists keep length and order, items preserve shape pointwise. -/
def shapeOkItems (fields : List String) : List PyVal → List PyVal → Bool
  | [], [] => true
  | v :: rest, v' :: rest' =>
    shapeOkVal fields v v' && shapeOkItems fields rest rest'
  | _, _ => false

end

mutual

theorem shapeOkVal_refl (fields : List String) (v : PyVal) :
    shapeOkVal fields v v = true := by
  cases v with
  | str s => simp [shapeOkVal]
  | dict d => exact shapeOkEntries_refl fields d
  | list xs => exact shapeOkItems_refl fields xs
  | none => simp [shapeOkVal]
  | pbool b => simp [shapeOkVal]
  | pint n => simp [shapeOkVal]

theorem shapeOkEntries_refl (fields : List String) (es : List (String × PyVal)) :
    shapeOkEntries fields es es = true := by
  match es with
  | [] => simp [shapeOkEntries]
  | (k, v) :: rest =>
    have hv := shapeOkVal_refl fields v
    have ht := shapeOkEntries_refl fields rest
    simp [shapeOkEntries, hv, ht]

theorem shapeOkItems_refl (fields : List String) (xs : List PyVal) :
    shapeOkItems fields xs xs = true := by
  match xs with
  | [] => simp [shapeOkItems]
  | v :: rest =>
    have hv := shapeOkVal_refl fields v
    have ht := shapeOkItems_refl fields rest
    simp [shapeOkItems, hv, ht]

end

mutual

theorem redact_json_shapeEntries (fields : List String)
    (es : List (String × PyVal)) :
    shapeOkEntries fields es (redact_json es fields) = true := by
  match es with
  | [] => simp [redact_json, shapeOkEntries]
  | (k, v) :: rest =>
    have htail := redact_json_shapeEntries fields rest
    by_cases hk : k ∈ fields
    · cases v with
      | str s => simp [redact_json, shapeOkEntries, hk, htail]
      | dict d => simp [redact_json, shapeOkEntries, hk, htail]
      | list xs => simp [redact_json, shapeOkEntries, hk, htail]
      | none => simp [redact_json, shapeOkEntries, hk, htail]
      | pbool b => simp [redact_json, shapeOkEntries, hk, htail]
      | pint n => simp [redact_json, shapeOkEntries, hk, htail]
    · cases v with
      | str s => simp [redact_json, shapeOkEntries, shapeOkVal, hk, htail]
      | dict d =>
        have hrec := redact_json_shapeEntries fields d
        simp [redact_json, shapeOkEntries, shapeOkVal, hk, htail, hrec]
      | list xs =>
        have hrec := redactItems_shapeItems fields xs
        simp [redact_json, shapeOkEntries, shapeOkVal, hk, htail, hrec]
      | none => simp [redact_json, shapeOkEntries, shapeOkVal, hk, htail]
      | pbool b => simp [redact_json, shapeOkEntries, shapeOkVal, hk, htail]
      | pint n => simp [redact_json, shapeOkEntries, shapeOkVal, hk, htail]

theorem redactItems_shapeItems (fields : List String) (xs : List PyVal) :
    shapeOkItems fields xs (redactItems xs fields) = true := by
  match xs with
  | [] => simp [redactItems, shapeOkItems]
  | v :: rest =>
    have htail := redactItems_shapeItems fields rest
    cases v with
    | str s => simp [redactItems, shapeOkItems, shapeOkVal, htail]
    | dict d =>
      have hrec := redact_json_shapeEntries fields d
      simp [redactItems, shapeOkItems, shapeOkVal, htail, hrec]
    | list xs' =>
      have hrefl := shapeOkItems_refl fields xs'
      simp [redactItems, shapeOkItems, shapeOkVal, htail, hrefl]
    | none => simp [redactItems, shapeOkItems, shapeOkVal, htail]
    | pbool b => simp [redactItems, shapeOkItems, shapeOkVal, htail]
    | pint n => simp [redactItems, shapeOkItems, shapeOkVal, htail]

end

/-- C10 counterexample input: a non-string scalar under a sensitive key. -/
def c10CeIn : List (String × PyVal) := [("ssn", .pint 123)]

/-- C10 counterexample theorem: the integer value under the sensitive key
`ssn` is not returned unchanged — it is replaced by the placeholder string,
refuting "every value that is neither a string, a map, nor a list is
returned unchanged" as stated. -/
theorem redact_json_scalar_replaced_ce :
    redact_json c10CeIn fieldsDefault = [("ssn", .str "[REDACTED]")] ∧
    pyLookup (redact_json c10CeIn fieldsDefault) "ssn" ≠ some (.pint 123) := by
  have h1 : redact_json c10CeIn fieldsDefault = [("ssn", .str "[REDACTED]")] := by
    simp [c10CeIn, redact_json, fieldsDefault]
  refine ⟨h1, ?_⟩
  rw [h1]
  intro hcontra
  simp [pyLookup] at hcontra

/-- C10 (amended): `redact_json` preserves the shape of its input except at
sensitive keys: at every map level the output has the same keys in the same
order, every rewritten list keeps its length and element order, and every
value not under a sensitive key that is neither a string, a map, nor a list
is returned unchanged.  (The embedding is a pure function, so the input
value itself is never mutated.) -/
theorem redact_json_shape (fields : List String) (es : List (String × PyVal)) :
    shapeOkEntries fields es (redact_json es fields) = true :=
  redact_json_shapeEntries fields es

/-!
### Idempotence of `redact_pii` (C7): matcher structure lemmas

Every result of `matchAll` consumes a prefix: its remainder is a suffix of
the input and its context character is the last consumed character (or the
incoming context when nothing was consumed).
-/

theorem matchAll_suffix : ∀ (pat : RePat) (prev : Option Char) (cs : List Char)
    (st : ReSt), st ∈ matchAll pat (prev, cs) →
    ∃ k, k ≤ cs.length ∧ st.2 = cs.drop k ∧
      ((k = 0 ∧ st.1 = prev) ∨ (1 ≤ k ∧ st.1 = cs.get? (k - 1))) := by
  intro pat
  induction pat with
  | eps =>
    intro prev cs st hst
    simp [matchAll] at hst
    exact ⟨0, by simp [hst]⟩
  | cls p =>
    intro prev cs st hst
    cases cs with
    | nil => simp [matchAll] at hst
    | cons c rest =>
      simp only [matchAll] at hst
      split at hst
      · simp at hst
        refine ⟨1, by simp, by simp [hst], Or.inr ⟨le_refl 1, ?_⟩⟩
        simp [hst]
      · simp at hst
  | seq a b iha ihb =>
    intro prev cs st hst
    simp only [matchAll, List.mem_flatMap] at hst
    obtain ⟨mid, hmid, hst⟩ := hst
    obtain ⟨k1, hk1le, hmid2, hmid1⟩ := iha prev cs mid hmid
    have hmid' : mid = (mid.1, cs.drop k1) := by
      cases mid with
      | mk a b =>
        simp only at hmid2
        rw [hmid2]
    rw [hmid'] at hst
    obtain ⟨k2, hk2le, hst2, hst1⟩ := ihb mid.1 (cs.drop k1) st hst
    have hk2le' : k2 ≤ cs.length - k1 := by simpa using hk2le
    refine ⟨k1 + k2, by omega, ?_, ?_⟩
    · rw [hst2, List.drop_drop]
    · rcases hst1 with ⟨hz, he⟩ | ⟨h1, he⟩
      · subst hz
        rcases hmid1 with ⟨hz1, he1⟩ | ⟨h11, he1⟩
        · exact Or.inl ⟨by omega, by rw [he, he1]⟩
        · refine Or.inr ⟨by omega, ?_⟩
          rw [he, he1]
          congr 1
      · refine Or.inr ⟨by omega, ?_⟩
        rw [he, List.get?_drop]
        congr 1
        omega
  | alt a b iha ihb =>
    intro prev cs st hst
    simp only [matchAll, List.mem_append] at hst
    rcases hst with h | h
    · exact iha prev cs st h
    · exact ihb prev cs st h
  | opt a iha =>
    intro prev cs st hst
    simp only [matchAll, List.mem_append, List.mem_singleton] at hst
    rcases hst with h | h
    · exact iha prev cs st h
    · exact ⟨0, by simp [h]⟩
  | wordB =>
    intro prev cs st hst
    simp only [matchAll] at hst
    split at hst
    · simp at hst
      exact ⟨0, by simp [hst]⟩
    · simp at hst
  | repGE p min =>
    intro prev cs st hst
    simp only [matchAll] at hst
    split at hst
    · simp at hst
    · simp only [List.mem_map, List.mem_range] at hst
      obtain ⟨j, hj, hst⟩ := hst
      have hrun : (cs.takeWhile p).length ≤ cs.length :=
        (List.takeWhile_prefix p).sublist.length_le
      refine ⟨(cs.takeWhile p).length - j, by omega, ?_, ?_⟩
      · rw [← hst]
      · by_cases hz : (cs.takeWhile p).length - j = 0
        · rw [← hst]
          exact Or.inl ⟨hz, by simp [hz]⟩
        · refine Or.inr ⟨by omega, ?_⟩
          rw [← hst]
          simp only [if_neg hz]
          have hlt : (cs.takeWhile p).length - j - 1 < (cs.takeWhile p).length := by
            omega
          have hlt2 : (cs.takeWhile p).length - j - 1 < cs.length := by omega
          rw [List.getD_eq_getElem?_getD, List.getElem?_eq_getElem hlt,
            List.get?_eq_getElem?, List.getElem?_eq_getElem hlt2]
          simp [(List.takeWhile_prefix p).getElem hlt]

/-- Some position of the scan (with its running context) matches. -/
def anyMatch (pat : RePat) (prev : Option Char) : List Char → Bool
  | [] => false
  | c :: rest => (firstMatchLen pat prev (c :: rest)).isSome || anyMatch pat (some c) rest

/-- Context character of position `i` of `cs`, scanning with initial
context `prev`. -/
def ctxAt (prev : Option Char) (cs : List Char) (i : Nat) : Option Char :=
  if i = 0 then prev else cs.get? (i - 1)

theorem firstMatchLen_none_iff (pat : RePat) (prev : Option Char) (cs : List Char) :
    firstMatchLen pat prev cs = Option.none ↔ matchAll pat (prev, cs) = [] := by
  unfold firstMatchLen
  cases matchAll pat (prev, cs) with
  | nil => simp
  | cons a t => cases a; simp

theorem ctxAt_zero (prev : Option Char) (cs : List Char) : ctxAt prev cs 0 = prev := by
  simp [ctxAt]

theorem ctxAt_cons_succ (prev : Option Char) (c : Char) (rest : List Char) (j : Nat) :
    ctxAt prev (c :: rest) (j + 1) = ctxAt (some c) rest j := by
  cases j with
  | zero => simp [ctxAt]
  | succ i => simp [ctxAt]

theorem anyMatch_false_iff (pat : RePat) :
    ∀ (cs : List Char) (prev : Option Char),
      anyMatch pat prev cs = false ↔
        ∀ i < cs.length, matchAll pat (ctxAt prev cs i, cs.drop i) = [] := by
  intro cs
  induction cs with
  | nil => simp [anyMatch]
  | cons c rest ih =>
    intro prev
    rw [anyMatch]
    simp only [Bool.or_eq_false_iff]
    constructor
    · rintro ⟨h1, h2⟩ i hi
      cases i with
      | zero =>
        rw [ctxAt_zero, List.drop_zero, ← firstMatchLen_none_iff]
        simpa using h1
      | succ j =>
        rw [ctxAt_cons_succ, List.drop_succ_cons]
        exact (ih (some c)).mp h2 j (by simpa using hi)
    · intro h
      constructor
      · have h0 := h 0 (by simp)
        rw [ctxAt_zero, List.drop_zero] at h0
        have := (firstMatchLen_none_iff pat prev (c :: rest)).mpr h0
        simp [this]
      · rw [ih (some c)]
        intro j hj
        have := h (j + 1) (by simpa using hj)
        rwa [ctxAt_cons_succ, List.drop_succ_cons] at this

/-- A scan over match-free input changes nothing. -/
theorem scanSub_of_free (pat : RePat) (repl : List Char) :
    ∀ (cs : List Char) (prev : Option Char), anyMatch pat prev cs = false →
      scanSub pat repl prev cs = cs := by
  intro cs
  induction cs with
  | nil => intro prev _; simp [scanSub]
  | cons c rest ih =>
    intro prev h
    rw [anyMatch, Bool.or_eq_false_iff] at h
    have h1 : firstMatchLen pat prev (c :: rest) = Option.none := by
      simpa using h.1
    simp only [scanSub, h1]
    rw [ih (some c) h.2]

/-- All character classes occurring in a pattern imply `S`. -/
def ClassesLe (S : Char → Prop) : RePat → Prop
  | .eps => True
  | .cls p => ∀ c, p c = true → S c
  | .seq a b => ClassesLe S a ∧ ClassesLe S b
  | .alt a b => ClassesLe S a ∧ ClassesLe S b
  | .opt a => ClassesLe S a
  | .repGE p _ => ∀ c, p c = true → S c
  | .wordB => True

/-- Every character a match consumes lies in every superset of the
pattern's classes. -/
theorem matchAll_consumed (S : Char → Prop) :
    ∀ (pat : RePat) (prev : Option Char) (cs : List Char) (st : ReSt),
      ClassesLe S pat → st ∈ matchAll pat (prev, cs) →
      ∀ c ∈ cs.take (cs.length - st.2.length), S c := by
  intro pat
  induction pat with
  | eps =>
    intro prev cs st _ hst
    simp [matchAll] at hst
    simp [hst]
  | cls p =>
    intro prev cs st hS hst
    cases cs with
    | nil => simp [matchAll] at hst
    | cons c rest =>
      simp only [matchAll] at hst
      split at hst
      · simp at hst
        rename_i hc
        intro x hx
        rw [hst] at hx
        simp at hx
        rw [hx]
        exact hS c hc
      · simp at hst
  | seq a b iha ihb =>
    intro prev cs st hS hst
    simp only [matchAll, List.mem_flatMap] at hst
    obtain ⟨mid, hmid, hstb⟩ := hst
    obtain ⟨k1, hk1le, hmid2, _⟩ := matchAll_suffix a prev cs mid hmid
    have hmid' : mid = (mid.1, cs.drop k1) := by
      cases mid with
      | mk x y =>
        simp only at hmid2
        rw [hmid2]
    rw [hmid'] at hstb
    obtain ⟨k2, hk2le, hst2, _⟩ := matchAll_suffix b mid.1 (cs.drop k1) st hstb
    have hk2le' : k2 ≤ cs.length - k1 := by simpa using hk2le
    have hlen : cs.length - st.2.length = k1 + k2 := by
      rw [hst2]
      simp
      omega
    rw [hlen]
    intro c hc
    rw [List.take_add, List.mem_append] at hc
    rcases hc with hc | hc
    · have ha := iha prev cs mid hS.1 hmid
      rw [hmid2, List.length_drop] at ha
      have harith : cs.length - (cs.length - k1) = k1 := by omega
      rw [harith] at ha
      exact ha c hc
    · have hb := ihb mid.1 (cs.drop k1) st hS.2 hstb
      rw [hst2, List.length_drop, List.length_drop, List.length_drop] at hb
      have harith : cs.length - k1 - (cs.length - k1 - k2) = k2 := by omega
      rw [harith] at hb
      exact hb c hc
  | alt a b iha ihb =>
    intro prev cs st hS hst
    simp only [matchAll, List.mem_append] at hst
    rcases hst with h | h
    · exact iha prev cs st hS.1 h
    · exact ihb prev cs st hS.2 h
  | opt a iha =>
    intro prev cs st hS hst
    simp only [matchAll, List.mem_append, List.mem_singleton] at hst
    rcases hst with h | h
    · exact iha prev cs st hS h
    · simp [h]
  | wordB =>
    intro prev cs st _ hst
    simp only [matchAll] at hst
    split at hst
    · simp at hst
      simp [hst]
    · simp at hst
  | repGE p min =>
    intro prev cs st hS hst
    simp only [matchAll] at hst
    split at hst
    · simp at hst
    · simp only [List.mem_map, List.mem_range] at hst
      obtain ⟨j, hj, hst⟩ := hst
      have hrun : (cs.takeWhile p).length ≤ cs.length :=
        (List.takeWhile_prefix p).sublist.length_le
      have hlen : cs.length - st.2.length = (cs.takeWhile p).length - j := by
        rw [← hst]
        simp
        omega
      rw [hlen]
      intro c hc
      have hc' : c ∈ cs.takeWhile p := by
        have hpre : cs.take ((cs.takeWhile p).length - j) <+:
            cs.take (cs.takeWhile p).length := by
          apply List.take_prefix_take_left
          omega
        have hmem : c ∈ cs.take (cs.takeWhile p).length := hpre.subset hc
        rwa [← List.prefix_iff_eq_take.mp (List.takeWhile_prefix p)] at hmem
      exact hS c (List.mem_takeWhile_imp hc')

theorem mem_matchAll_seq {a b : RePat} {s : ReSt} {st : ReSt} :
    st ∈ matchAll (.seq a b) s ↔ ∃ mid ∈ matchAll a s, st ∈ matchAll b mid := by
  simp [matchAll, List.mem_flatMap]

theorem matchAll_wordB_mem {prev : Option Char} {cs : List Char} {st : ReSt} :
    st ∈ matchAll .wordB (prev, cs) ↔
      isBoundary prev cs.head? = true ∧ st = (prev, cs) := by
  simp only [matchAll]
  split
  · rename_i h
    simp [h, eq_comm]
  · rename_i h
    simp only [Bool.not_eq_true] at h
    simp [h]

/-- Every pattern here opens with `\b`: a match requires a boundary at its
start. -/
theorem matchAll_leading_boundary {r : RePat} {prev : Option Char}
    {cs : List Char} {st : ReSt} (h : st ∈ matchAll (.seq .wordB r) (prev, cs)) :
    isBoundary prev cs.head? = true := by
  rw [mem_matchAll_seq] at h
  obtain ⟨mid, hmid, -⟩ := h
  exact (matchAll_wordB_mem.mp hmid).1

/-- Matches of `seqL (xs ++ [wordB])` end at a boundary: the final state's
context and remainder are separated by `\b`. -/
theorem seqL_trailing_boundary :
    ∀ (xs : List RePat) (prev : Option Char) (cs : List Char) (st : ReSt),
      st ∈ matchAll (seqL (xs ++ [.wordB])) (prev, cs) →
      isBoundary st.1 st.2.head? = true := by
  intro xs
  induction xs with
  | nil =>
    intro prev cs st h
    simp only [List.nil_append, seqL, List.foldr] at h
    rw [mem_matchAll_seq] at h
    obtain ⟨mid, hmid, hst⟩ := h
    obtain ⟨hb, hmid'⟩ := matchAll_wordB_mem.mp hmid
    simp [matchAll] at hst
    rw [hst, hmid']
    exact hb
  | cons x rest ih =>
    intro prev cs st h
    simp only [List.cons_append, seqL, List.foldr] at h
    rw [mem_matchAll_seq] at h
    obtain ⟨mid, -, hst⟩ := h
    have := ih mid.1 mid.2 st (by simpa [seqL] using hst)
    exact this

/-- Patterns that always consume at least one character. -/
def ConsumesPos : RePat → Prop
  | .eps => False
  | .wordB => False
  | .cls _ => True
  | .repGE _ min => 1 ≤ min
  | .seq a b => ConsumesPos a ∨ ConsumesPos b
  | .alt a b => ConsumesPos a ∧ ConsumesPos b
  | .opt _ => False

theorem consumesPos_sound :
    ∀ (pat : RePat) (prev : Option Char) (cs : List Char) (st : ReSt),
      ConsumesPos pat → st ∈ matchAll pat (prev, cs) → st.2.length < cs.length := by
  intro pat
  induction pat with
  | eps => intro _ _ _ h; exact absurd h (by simp [ConsumesPos])
  | wordB => intro _ _ _ h; exact absurd h (by simp [ConsumesPos])
  | opt a iha => intro _ _ _ h; exact absurd h (by simp [ConsumesPos])
  | cls p =>
    intro prev cs st _ hst
    cases cs with
    | nil => simp [matchAll] at hst
    | cons c rest =>
      simp only [matchAll] at hst
      split at hst
      · simp at hst
        rw [hst]
        simp
      · simp at hst
  | seq a b iha ihb =>
    intro prev cs st hpos hst
    rw [mem_matchAll_seq] at hst
    obtain ⟨mid, hmid, hstb⟩ := hst
    obtain ⟨k1, hk1le, hmid2, -⟩ := matchAll_suffix a prev cs mid hmid
    have hmid' : mid = (mid.1, cs.drop k1) := by
      cases mid with
      | mk u v =>
        simp only at hmid2
        rw [hmid2]
    rw [hmid'] at hstb
    obtain ⟨k2, hk2le, hst2, -⟩ := matchAll_suffix b mid.1 (cs.drop k1) st hstb
    rcases hpos with hp | hp
    · have h1 := iha prev cs mid hp hmid
      rw [hmid2] at h1
      have hk1 : 1 ≤ k1 := by
        rw [List.length_drop] at h1
        omega
      rw [hst2, List.length_drop, List.length_drop]
      omega
    · have h2 := ihb mid.1 (cs.drop k1) st hp hstb
      have hd : (cs.drop k1).length ≤ cs.length := by simp
      omega
  | alt a b iha ihb =>
    intro prev cs st hpos hst
    simp only [matchAll, List.mem_append] at hst
    rcases hst with h | h
    · exact iha prev cs st hpos.1 h
    · exact ihb prev cs st hpos.2 h
  | repGE p min =>
    intro prev cs st hpos hst
    simp only [matchAll] at hst
    split at hst
    · simp at hst
    · simp only [List.mem_map, List.mem_range] at hst
      obtain ⟨j, hj, hst⟩ := hst
      rename_i hmin
      push_neg at hmin
      have hrun : (cs.takeWhile p).length ≤ cs.length :=
        (List.takeWhile_prefix p).sublist.length_le
      rw [← hst]
      simp only [List.length_drop]
      have hpos' : (1 : Nat) ≤ min := hpos
      omega

/-- Every match's first consumed character is in `C` (compositionally). -/
def FirstLe (C : Char → Prop) : RePat → Prop
  | .eps => True
  | .wordB => True
  | .cls p => ∀ c, p c = true → C c
  | .repGE p _ => ∀ c, p c = true → C c
  | .alt a b => FirstLe C a ∧ FirstLe C b
  | .opt a => FirstLe C a
  | .seq a b => FirstLe C a ∧ (ConsumesPos a ∨ FirstLe C b)

theorem firstLe_sound (C : Char → Prop) :
    ∀ (pat : RePat) (prev : Option Char) (cs : List Char) (st : ReSt),
      FirstLe C pat → st ∈ matchAll pat (prev, cs) → st.2.length < cs.length →
      ∃ c rest0, cs = c :: rest0 ∧ C c := by
  intro pat
  induction pat with
  | eps =>
    intro prev cs st _ hst hlt
    simp [matchAll] at hst
    rw [hst] at hlt
    simp at hlt
  | wordB =>
    intro prev cs st _ hst hlt
    obtain ⟨hb, hst'⟩ := matchAll_wordB_mem.mp hst
    rw [hst'] at hlt
    simp at hlt
  | cls p =>
    intro prev cs st hC hst _
    cases cs with
    | nil => simp [matchAll] at hst
    | cons c rest =>
      simp only [matchAll] at hst
      split at hst
      · rename_i hc
        exact ⟨c, rest, rfl, hC c hc⟩
      · simp at hst
  | seq a b iha ihb =>
    intro prev cs st hC hst hlt
    rw [mem_matchAll_seq] at hst
    obtain ⟨mid, hmid, hstb⟩ := hst
    obtain ⟨k1, hk1le, hmid2, -⟩ := matchAll_suffix a prev cs mid hmid
    have hmid' : mid = (mid.1, cs.drop k1) := by
      cases mid with
      | mk u v =>
        simp only at hmid2
        rw [hmid2]
    rw [hmid'] at hstb
    by_cases hk1 : k1 = 0
    · subst hk1
      rw [List.drop_zero] at hstb
      rcases hC.2 with hp | hfb
      · exfalso
        have := consumesPos_sound a prev cs mid hp hmid
        rw [hmid2] at this
        simp at this
      · exact ihb mid.1 cs st hfb hstb hlt
    · have hmidlt : mid.2.length < cs.length := by
        rw [hmid2, List.length_drop]
        omega
      exact iha prev cs mid hC.1 hmid hmidlt
  | alt a b iha ihb =>
    intro prev cs st hC hst hlt
    simp only [matchAll, List.mem_append] at hst
    rcases hst with h | h
    · exact iha prev cs st hC.1 h hlt
    · exact ihb prev cs st hC.2 h hlt
  | opt a iha =>
    intro prev cs st hC hst hlt
    simp only [matchAll, List.mem_append, List.mem_singleton] at hst
    rcases hst with h | h
    · exact iha prev cs st hC h hlt
    · rw [h] at hlt
      simp at hlt
  | repGE p min =>
    intro prev cs st hC hst hlt
    simp only [matchAll] at hst
    split at hst
    · simp at hst
    · simp only [List.mem_map, List.mem_range] at hst
      obtain ⟨j, hj, hst⟩ := hst
      have ht : (cs.takeWhile p).length - j ≥ 1 := by
        rw [← hst] at hlt
        simp only [List.length_drop] at hlt
        omega
      cases hcs : cs.takeWhile p with
      | nil => rw [hcs] at ht; simp at ht
      | cons c0 run0 =>
        cases cs with
        | nil => simp at hcs
        | cons c rest =>
          refine ⟨c, rest, rfl, ?_⟩
          have hc0 : c0 = c := by
            have h9 : (c :: rest).takeWhile p <+: (c :: rest) := List.takeWhile_prefix p
            rw [hcs] at h9
            obtain ⟨t, ht'⟩ := h9
            simpa using congrArg List.head? ht'
          have : p c0 = true := List.mem_takeWhile_imp (by rw [hcs]; simp)
          rw [hc0] at this
          exact hC c this


/-- `head?` as `get? 0`. -/
theorem head?_eq_get? (l : List Char) : l.head? = l.get? 0 := by
  cases l <;> rfl

/-- Dropping different in-range amounts gives different suffixes. -/
theorem drop_eq_drop_inj {cs : List Char} {a b : Nat} (ha : a ≤ cs.length)
    (hb : b ≤ cs.length) (h : cs.drop a = cs.drop b) : a = b := by
  have hl := congrArg List.length h
  simp only [List.length_drop] at hl
  omega

/-- Equal `take k` prefixes agree at every index below `k`. -/
theorem get?_eq_of_take_eq {cs1 cs2 : List Char} {k i : Nat}
    (h : cs1.take k = cs2.take k) (hi : i < k) : cs1.get? i = cs2.get? i :=
  calc cs1.get? i = (cs1.take k).get? i := (List.get?_take hi).symm
    _ = (cs2.take k).get? i := by rw [h]
    _ = cs2.get? i := List.get?_take hi

/-- Inside the `takeWhile` run, every character satisfies the predicate. -/
theorem take_takeWhile_all {p : Char → Bool} {cs : List Char} {k : Nat}
    (h : k ≤ (cs.takeWhile p).length) : ∀ c ∈ cs.take k, p c = true := by
  intro c hc
  have hpre : cs.take k <+: cs.take (cs.takeWhile p).length :=
    List.take_prefix_take_left _ h
  have hmem : c ∈ cs.take (cs.takeWhile p).length := hpre.subset hc
  rw [← List.prefix_iff_eq_take.mp (List.takeWhile_prefix p)] at hmem
  exact List.mem_takeWhile_imp hmem

/-- A prefix of in-class characters bounds the `takeWhile` run from below. -/
theorem takeWhile_len_ge {p : Char → Bool} :
    ∀ (cs : List Char) (k : Nat), k ≤ cs.length → (∀ c ∈ cs.take k, p c = true) →
      k ≤ (cs.takeWhile p).length := by
  intro cs
  induction cs with
  | nil => intro k hk _; simpa using hk
  | cons c rest ih =>
    intro k hk hall
    cases k with
    | zero => simp
    | succ k' =>
      have hc : p c = true := hall c (by simp)
      rw [List.takeWhile_cons_of_pos hc]
      simp only [List.length_cons]
      have := ih k' (by simpa using hk) (fun d hd => hall d (by simp [hd]))
      omega

/-- A character sitting at an index below `k` is in `take k`. -/
theorem mem_take_of_get? {cs : List Char} {j k : Nat} {c : Char}
    (h : cs.get? j = some c) (hj : j < k) : c ∈ cs.take k := by
  have hh : (cs.take k).get? j = some c := by rw [List.get?_take hj]; exact h
  exact List.get?_mem hh

/-- Window locality: whether some match consumes exactly `k` characters
depends only on the wordness of the previous character, the first `k`
characters themselves, and the wordness of the character at index `k`. -/
theorem matchAll_window :
    ∀ (pat : RePat) (p1 p2 : Option Char) (cs1 cs2 : List Char) (k : Nat),
      wordness p1 = wordness p2 →
      cs1.take k = cs2.take k →
      k ≤ cs1.length → k ≤ cs2.length →
      wordness (cs1.get? k) = wordness (cs2.get? k) →
      (∃ st ∈ matchAll pat (p1, cs1), st.2 = cs1.drop k) →
      ∃ st ∈ matchAll pat (p2, cs2), st.2 = cs2.drop k := by
  intro pat
  induction pat with
  | eps =>
    intro p1 p2 cs1 cs2 k _ _ h1 _ _ hm
    obtain ⟨st, hst, hdrop⟩ := hm
    simp [matchAll] at hst
    rw [hst] at hdrop
    have hl := congrArg List.length hdrop
    simp at hl
    have hk0 : k = 0 := by omega
    exact ⟨(p2, cs2), by simp [matchAll], by simp [hk0]⟩
  | cls p =>
    intro p1 p2 cs1 cs2 k _ ht h1 h2 _ hm
    obtain ⟨st, hst, hdrop⟩ := hm
    cases cs1 with
    | nil => simp [matchAll] at hst
    | cons c r1 =>
      simp only [matchAll] at hst
      split at hst
      · rename_i hc
        simp at hst
        rw [hst] at hdrop
        have hl := congrArg List.length hdrop
        simp at hl
        simp only [List.length_cons] at h1
        have hk1 : k = 1 := by omega
        subst hk1
        cases cs2 with
        | nil => simp at h2
        | cons c2 r2 =>
          have hcc : c2 = c := by
            simpa using ht.symm
          refine ⟨(some c2, r2), ?_, by simp⟩
          simp only [matchAll, hcc, hc]
          simp
      · simp at hst
  | wordB =>
    intro p1 p2 cs1 cs2 k hw _ h1 _ hk hm
    obtain ⟨st, hst, hdrop⟩ := hm
    simp only [matchAll] at hst
    split at hst
    · rename_i hb
      simp at hst
      rw [hst] at hdrop
      have hl := congrArg List.length hdrop
      simp at hl
      have hk0 : k = 0 := by omega
      subst hk0
      have hb2 : isBoundary p2 cs2.head? = true := by
        rw [isBoundary, head?_eq_get?, ← hw, ← hk, ← head?_eq_get?]
        exact hb
      refine ⟨(p2, cs2), ?_, by simp⟩
      simp [matchAll, hb2]
    · simp at hst
  | seq a b iha ihb =>
    intro p1 p2 cs1 cs2 k hw ht h1 h2 hk hm
    obtain ⟨st, hst, hdrop⟩ := hm
    rw [mem_matchAll_seq] at hst
    obtain ⟨mid, hmid, hstb⟩ := hst
    obtain ⟨k1, hk1le, hmid2, hmid1⟩ := matchAll_suffix a p1 cs1 mid hmid
    have hmid' : mid = (mid.1, cs1.drop k1) := by
      cases mid with
      | mk u v =>
        simp only at hmid2
        rw [hmid2]
    rw [hmid'] at hstb
    obtain ⟨k2, hk2le, hst2, _⟩ := matchAll_suffix b mid.1 (cs1.drop k1) st hstb
    have hk2le' : k2 ≤ cs1.length - k1 := by simpa using hk2le
    have hkk : k1 + k2 = k := by
      apply drop_eq_drop_inj (by omega) h1
      rw [← List.drop_drop, ← hst2, hdrop]
    have hk1k : k1 ≤ k := by omega
    have hta : cs1.take k1 = cs2.take k1 := by
      have h' := congrArg (List.take k1) ht
      rwa [List.take_take, List.take_take, inf_eq_left.mpr hk1k] at h'
    have hwa : wordness (cs1.get? k1) = wordness (cs2.get? k1) := by
      by_cases hlt : k1 < k
      · rw [get?_eq_of_take_eq ht hlt]
      · have hke : k1 = k := by omega
        rw [hke]; exact hk
    obtain ⟨mid2, hmid2mem, hmid2drop⟩ :=
      iha p1 p2 cs1 cs2 k1 hw hta (by omega) (by omega) hwa ⟨mid, hmid, hmid2⟩
    obtain ⟨k1', hk1'le, hm2d, hm2ctx⟩ := matchAll_suffix a p2 cs2 mid2 hmid2mem
    have hk1'eq : k1' = k1 :=
      drop_eq_drop_inj hk1'le (by omega) (by rw [← hm2d, hmid2drop])
    rw [hk1'eq] at hm2ctx
    have hwctx : wordness mid.1 = wordness mid2.1 := by
      rcases hmid1 with ⟨hz, he⟩ | ⟨h1', he⟩
      · rcases hm2ctx with ⟨_, he2⟩ | ⟨h12, _⟩
        · rw [he, he2, hw]
        · omega
      · rcases hm2ctx with ⟨hz2, _⟩ | ⟨_, he2⟩
        · omega
        · rw [he, he2]
          rw [get?_eq_of_take_eq ht (by omega)]
    have htb : (cs1.drop k1).take k2 = (cs2.drop k1).take k2 := by
      rw [List.take_drop, List.take_drop, hkk, ht]
    have hwb : wordness ((cs1.drop k1).get? k2) = wordness ((cs2.drop k1).get? k2) := by
      rw [List.get?_drop, List.get?_drop, hkk]
      exact hk
    obtain ⟨st2, hst2mem, hst2drop⟩ :=
      ihb mid.1 mid2.1 (cs1.drop k1) (cs2.drop k1) k2 hwctx htb
        (by simpa using hk2le)
        (by simp only [List.length_drop]; omega) hwb ⟨st, hstb, hst2⟩
    refine ⟨st2, ?_, ?_⟩
    · rw [mem_matchAll_seq]
      refine ⟨(mid2.1, cs2.drop k1), ?_, hst2mem⟩
      have hmid2' : mid2 = (mid2.1, cs2.drop k1) := by
        cases mid2 with
        | mk u v =>
          simp only at hmid2drop
          rw [hmid2drop]
      rw [← hmid2']
      exact hmid2mem
    · rw [hst2drop, List.drop_drop, hkk]
  | alt a b iha ihb =>
    intro p1 p2 cs1 cs2 k hw ht h1 h2 hk hm
    obtain ⟨st, hst, hdrop⟩ := hm
    simp only [matchAll, List.mem_append] at hst
    rcases hst with h | h
    · obtain ⟨st2, hmem, hd⟩ := iha p1 p2 cs1 cs2 k hw ht h1 h2 hk ⟨st, h, hdrop⟩
      exact ⟨st2, by simp only [matchAll, List.mem_append]; exact Or.inl hmem, hd⟩
    · obtain ⟨st2, hmem, hd⟩ := ihb p1 p2 cs1 cs2 k hw ht h1 h2 hk ⟨st, h, hdrop⟩
      exact ⟨st2, by simp only [matchAll, List.mem_append]; exact Or.inr hmem, hd⟩
  | opt a iha =>
    intro p1 p2 cs1 cs2 k hw ht h1 h2 hk hm
    obtain ⟨st, hst, hdrop⟩ := hm
    simp only [matchAll, List.mem_append, List.mem_singleton] at hst
    rcases hst with h | h
    · obtain ⟨st2, hmem, hd⟩ := iha p1 p2 cs1 cs2 k hw ht h1 h2 hk ⟨st, h, hdrop⟩
      exact ⟨st2, by simp only [matchAll, List.mem_append]; exact Or.inl hmem, hd⟩
    · rw [h] at hdrop
      have hl := congrArg List.length hdrop
      simp at hl
      have hk0 : k = 0 := by omega
      refine ⟨(p2, cs2), ?_, by simp [hk0]⟩
      simp [matchAll]
  | repGE p min =>
    intro p1 p2 cs1 cs2 k _ ht h1 h2 _ hm
    obtain ⟨st, hst, hdrop⟩ := hm
    simp only [matchAll] at hst
    split at hst
    · simp at hst
    · rename_i hmin
      push_neg at hmin
      simp only [List.mem_map, List.mem_range] at hst
      obtain ⟨j, hj, hstj⟩ := hst
      have hrun1le : (cs1.takeWhile p).length ≤ cs1.length :=
        (List.takeWhile_prefix p).sublist.length_le
      have ht1 : (cs1.takeWhile p).length - j = k := by
        apply drop_eq_drop_inj (by omega) h1
        rw [← hdrop, ← hstj]
      have hkrun1 : k ≤ (cs1.takeWhile p).length := by omega
      have hkmin : min ≤ k := by omega
      have hallp : ∀ c ∈ cs2.take k, p c = true := by
        rw [← ht]
        exact take_takeWhile_all hkrun1
      have hkrun2 : k ≤ (cs2.takeWhile p).length := takeWhile_len_ge cs2 k h2 hallp
      refine ⟨(if k = 0 then p2 else some ((cs2.takeWhile p).getD (k - 1) ' '),
        cs2.drop k), ?_, rfl⟩
      simp only [matchAll]
      rw [if_neg (by omega)]
      simp only [List.mem_map, List.mem_range]
      refine ⟨(cs2.takeWhile p).length - k, by omega, ?_⟩
      rw [show (cs2.takeWhile p).length - ((cs2.takeWhile p).length - k) = k from by omega]


/-- The pattern forces some consumed character into `W`, compositionally. -/
def HasW (W : Char → Prop) : RePat → Prop
  | .eps => False
  | .wordB => False
  | .opt _ => False
  | .cls p => ∀ c, p c = true → W c
  | .repGE p min => 1 ≤ min ∧ ∀ c, p c = true → W c
  | .seq a b => HasW W a ∨ HasW W b
  | .alt a b => HasW W a ∧ HasW W b

/-- A `HasW` pattern's every match consumes at least one `W` character. -/
theorem hasW_sound (W : Char → Prop) :
    ∀ (pat : RePat) (prev : Option Char) (cs : List Char) (st : ReSt),
      HasW W pat → st ∈ matchAll pat (prev, cs) →
      ∃ c ∈ cs.take (cs.length - st.2.length), W c := by
  intro pat
  induction pat with
  | eps => intro _ _ _ h _; exact absurd h (by simp [HasW])
  | wordB => intro _ _ _ h _; exact absurd h (by simp [HasW])
  | opt a _ => intro _ _ _ h _; exact absurd h (by simp [HasW])
  | cls p =>
    intro prev cs st hW hst
    cases cs with
    | nil => simp [matchAll] at hst
    | cons c rest =>
      simp only [matchAll] at hst
      split at hst
      · rename_i hc
        simp at hst
        rw [hst]
        refine ⟨c, ?_, hW c hc⟩
        have h1 : (c :: rest).length - rest.length = 1 := by simp
        rw [h1]
        simp
      · simp at hst
  | seq a b iha ihb =>
    intro prev cs st hW hst
    rw [mem_matchAll_seq] at hst
    obtain ⟨mid, hmid, hstb⟩ := hst
    obtain ⟨k1, hk1le, hmid2, -⟩ := matchAll_suffix a prev cs mid hmid
    have hmid' : mid = (mid.1, cs.drop k1) := by
      cases mid with
      | mk u v =>
        simp only at hmid2
        rw [hmid2]
    rw [hmid'] at hstb
    obtain ⟨k2, hk2le, hst2, -⟩ := matchAll_suffix b mid.1 (cs.drop k1) st hstb
    have hk2le' : k2 ≤ cs.length - k1 := by simpa using hk2le
    have hlen : cs.length - st.2.length = k1 + k2 := by
      rw [hst2]
      simp
      omega
    rw [hlen]
    rcases hW with hWa | hWb
    · obtain ⟨c, hc, hWc⟩ := iha prev cs mid hWa hmid
      have hcl : cs.length - mid.2.length = k1 := by
        rw [hmid2]
        simp
        omega
      rw [hcl] at hc
      refine ⟨c, ?_, hWc⟩
      exact (List.take_prefix_take_left _ (by omega)).subset hc
    · obtain ⟨c, hc, hWc⟩ := ihb mid.1 (cs.drop k1) st hWb hstb
      have hcl : (cs.drop k1).length - st.2.length = k2 := by
        rw [hst2]
        simp
        omega
      rw [hcl] at hc
      refine ⟨c, ?_, hWc⟩
      rw [List.take_add, List.mem_append]
      exact Or.inr hc
  | alt a b iha ihb =>
    intro prev cs st hW hst
    simp only [matchAll, List.mem_append] at hst
    rcases hst with h | h
    · exact iha prev cs st hW.1 h
    · exact ihb prev cs st hW.2 h
  | repGE p min =>
    intro prev cs st hW hst
    simp only [matchAll] at hst
    split at hst
    · simp at hst
    · rename_i hmin
      push_neg at hmin
      simp only [List.mem_map, List.mem_range] at hst
      obtain ⟨j, hj, hst⟩ := hst
      have hrun : (cs.takeWhile p).length ≤ cs.length :=
        (List.takeWhile_prefix p).sublist.length_le
      have hlen : cs.length - st.2.length = (cs.takeWhile p).length - j := by
        rw [← hst]
        simp
        omega
      rw [hlen]
      have hmin1 : 1 ≤ min := hW.1
      have ht1 : 1 ≤ (cs.takeWhile p).length - j := by omega
      cases cs with
      | nil =>
        simp at hmin
        omega
      | cons c0 rest =>
        have hp0 : p c0 = true := by
          by_cases hp : p c0 = true
          · exact hp
          · rw [List.takeWhile_cons_of_neg (by simpa using hp)] at ht1
            simp at ht1
        refine ⟨c0, ?_, hW.2 c0 hp0⟩
        cases ht : ((c0 :: rest).takeWhile p).length - j with
        | zero => omega
        | succ t => simp

/-- Structure of one `re.sub` scan: either no position matches and the input
is returned unchanged, or the input splits at the first committed match into
an untouched prefix, the replacement, and a recursive scan resuming after
the consumed span with the original context character. -/
theorem scanSub_decomp (p : RePat) (r : List Char) (hp : ConsumesPos p) :
    ∀ (cs : List Char) (prev : Option Char),
      ((∀ i < cs.length, matchAll p (ctxAt prev cs i, cs.drop i) = []) ∧
        scanSub p r prev cs = cs) ∨
      (∃ m len, 1 ≤ len ∧ m + len ≤ cs.length ∧
        (∀ i < m, matchAll p (ctxAt prev cs i, cs.drop i) = []) ∧
        (∃ st ∈ matchAll p (ctxAt prev cs m, cs.drop m), st.2 = cs.drop (m + len)) ∧
        scanSub p r prev cs =
          cs.take m ++ r ++
            scanSub p r (some (cs.getD (m + len - 1) ' ')) (cs.drop (m + len))) := by
  intro cs
  induction cs with
  | nil =>
    intro prev
    left
    refine ⟨?_, by simp [scanSub]⟩
    intro i hi
    simp at hi
  | cons c rest ih =>
    intro prev
    cases hfm : firstMatchLen p prev (c :: rest) with
    | none =>
      have h0 : matchAll p (prev, c :: rest) = [] :=
        (firstMatchLen_none_iff p prev (c :: rest)).mp hfm
      have hscan : scanSub p r prev (c :: rest) = c :: scanSub p r (some c) rest := by
        simp only [scanSub, hfm]
      rcases ih (some c) with ⟨hnm, heq⟩ | ⟨m, len, hlen, hmle, hnm, hmatch, heq⟩
      · left
        constructor
        · intro i hi
          cases i with
          | zero => rw [ctxAt_zero, List.drop_zero]; exact h0
          | succ j =>
            rw [ctxAt_cons_succ, List.drop_succ_cons]
            exact hnm j (by simpa using hi)
        · rw [hscan, heq]
      · right
        refine ⟨m + 1, len, hlen, by simp only [List.length_cons]; omega, ?_, ?_, ?_⟩
        · intro i hi
          cases i with
          | zero => rw [ctxAt_zero, List.drop_zero]; exact h0
          | succ j =>
            rw [ctxAt_cons_succ, List.drop_succ_cons]
            exact hnm j (by omega)
        · rw [ctxAt_cons_succ, List.drop_succ_cons,
            show m + 1 + len = (m + len) + 1 from by omega, List.drop_succ_cons]
          exact hmatch
        · rw [hscan, heq, show m + 1 + len - 1 = (m + len - 1) + 1 from by omega,
            show m + 1 + len = (m + len) + 1 from by omega, List.drop_succ_cons,
            List.getD_cons_succ, List.take_succ_cons]
          simp
    | some n =>
      have hne : matchAll p (prev, c :: rest) ≠ [] := by
        intro hma
        rw [(firstMatchLen_none_iff p prev (c :: rest)).mpr hma] at hfm
        exact Option.noConfusion hfm
      obtain ⟨st, tl, hma⟩ : ∃ st tl, matchAll p (prev, c :: rest) = st :: tl := by
        cases hma : matchAll p (prev, c :: rest) with
        | nil => exact absurd hma hne
        | cons st tl => exact ⟨st, tl, rfl⟩
      have hstmem : st ∈ matchAll p (prev, c :: rest) := by rw [hma]; simp
      have hfm' : n = (c :: rest).length - st.2.length := by
        rw [firstMatchLen, hma] at hfm
        cases st with
        | mk u v => simpa using hfm.symm
      have hpos : st.2.length < (c :: rest).length :=
        consumesPos_sound p prev (c :: rest) st hp hstmem
      obtain ⟨k0, hk0le, hst2, -⟩ := matchAll_suffix p prev (c :: rest) st hstmem
      have hk0n : k0 = n := by
        have hl := congrArg List.length hst2
        simp only [List.length_drop] at hl
        omega
      have hn1 : 1 ≤ n := by
        have hl := congrArg List.length hst2
        simp only [List.length_drop] at hl
        omega
      cases n with
      | zero => omega
      | succ k =>
        have hscan : scanSub p r prev (c :: rest) =
            r ++ scanSub p r (some ((c :: rest).getD k ' ')) ((c :: rest).drop (k + 1)) := by
          simp only [scanSub, hfm]
        right
        refine ⟨0, k + 1, by omega, ?_, ?_, ?_, ?_⟩
        · have h' := hk0le
          simp only [List.length_cons] at h' ⊢
          omega
        · intro i hi
          omega
        · rw [ctxAt_zero, List.drop_zero]
          refine ⟨st, hstmem, ?_⟩
          rw [hst2, hk0n]
          simp
        · rw [hscan]
          simp


/-- `seqL` unfolds on a cons. -/
theorem seqL_cons (x : RePat) (L : List RePat) : seqL (x :: L) = .seq x (seqL L) := rfl

/-- Shifting scan positions across a drop, with the original context char. -/
theorem ctxAt_drop_eq {cs : List Char} {a : Nat} {c : Char} (prev : Option Char)
    (ha : 1 ≤ a) (hc : cs.get? (a - 1) = some c) (j : Nat) :
    ctxAt (some c) (cs.drop a) j = ctxAt prev cs (a + j) := by
  cases j with
  | zero =>
    rw [ctxAt, ctxAt, if_pos rfl, if_neg (by omega)]
    rw [show a + 0 - 1 = a - 1 from by omega, hc]
  | succ t =>
    rw [ctxAt, ctxAt, if_neg (by omega), if_neg (by omega), List.get?_drop]
    congr 1

/-- A nonempty match list has a member. -/
theorem exists_mem_of_ne_nil {pat : RePat} {s : ReSt} (h : matchAll pat s ≠ []) :
    ∃ st, st ∈ matchAll pat s := by
  exact List.exists_mem_of_ne_nil (matchAll pat s) h

/-- Two characters on the same side of one boundary have equal wordness. -/
theorem wordness_eq_of_boundary_left {z x y : Option Char}
    (h1 : isBoundary z x = true) (h2 : isBoundary z y = true) :
    wordness x = wordness y := by
  simp only [isBoundary, bne_iff_ne, ne_eq] at h1 h2
  rcases Bool.eq_false_or_eq_true (wordness z) with hz | hz <;>
    rcases Bool.eq_false_or_eq_true (wordness x) with hx | hx <;>
      rcases Bool.eq_false_or_eq_true (wordness y) with hy | hy <;>
        simp_all

/-- Two characters on the same side of one boundary have equal wordness. -/
theorem wordness_eq_of_boundary_right {x y z : Option Char}
    (h1 : isBoundary x z = true) (h2 : isBoundary y z = true) :
    wordness x = wordness y := by
  simp only [isBoundary, bne_iff_ne, ne_eq] at h1 h2
  rcases Bool.eq_false_or_eq_true (wordness z) with hz | hz <;>
    rcases Bool.eq_false_or_eq_true (wordness x) with hx | hx <;>
      rcases Bool.eq_false_or_eq_true (wordness y) with hy | hy <;>
        simp_all

/-- Core preservation property of one `re.sub` scan with a bracketed
placeholder: scanning `p` over input where `q` cannot match at any position
`p` leaves alone produces output with no `q`-match anywhere.  Instantiated
with `q := p` this is the scan's own-freedom; with a `q`-free input it is
preservation of `q`-freedom. -/
theorem scanSub_keeps_free
    (p q : RePat) (xsp xsq : List RePat) (r : List Char) (Cq : Char → Bool)
    (W : Char → Prop)
    (hp_shape : p = seqL (.wordB :: xsp ++ [.wordB]))
    (hq_shape : q = seqL (.wordB :: xsq ++ [.wordB]))
    (hp_cons : ConsumesPos p) (hq_cons : ConsumesPos q)
    (hq_cls : ClassesLe (fun c => Cq c = true) q)
    (hCqL : Cq '[' = false) (hCqR : Cq ']' = false)
    (hq_W : HasW W q)
    (hrW : ∀ c ∈ r, ¬ W c)
    (hrhead : r.head? = some '[')
    (hrlast : r.get? (r.length - 1) = some ']') :
    ∀ (N : Nat) (cs : List Char) (prevI prevO : Option Char),
      cs.length ≤ N →
      (∀ i < cs.length, matchAll p (ctxAt prevI cs i, cs.drop i) = [] →
        matchAll q (ctxAt prevI cs i, cs.drop i) = []) →
      (prevO = prevI ∨ (wordness prevO = false ∧ isBoundary prevI cs.head? = true)) →
      anyMatch q prevO (scanSub p r prevI cs) = false := by
  have hpL : p = .seq .wordB (seqL (xsp ++ [.wordB])) := by rw [hp_shape]; rfl
  have hqL : q = .seq .wordB (seqL (xsq ++ [.wordB])) := by rw [hq_shape]; rfl
  have hp2 : p = seqL ((.wordB :: xsp) ++ [.wordB]) := hp_shape
  have hq2 : q = seqL ((.wordB :: xsq) ++ [.wordB]) := hq_shape
  have hrlen : 1 ≤ r.length := by
    cases r with
    | nil => simp at hrhead
    | cons a t => simp
  intro N
  induction N with
  | zero =>
    intro cs prevI prevO hN _ _
    have hcs : cs = [] := List.length_eq_zero.mp (by omega)
    subst hcs
    simp [scanSub, anyMatch]
  | succ N ihN =>
    intro cs prevI prevO hN H G
    rcases scanSub_decomp p r hp_cons cs prevI with
      ⟨hnm, heq⟩ | ⟨m, len, hlen1, hmlen, hnm, hmatch, heq⟩
    · -- no match anywhere: the scan is the identity
      rw [heq, anyMatch_false_iff]
      intro i hi
      by_contra hne
      obtain ⟨stq, hstqmem⟩ := exists_mem_of_ne_nil hne
      obtain ⟨l, hlle, hstq2, -⟩ :=
        matchAll_suffix q (ctxAt prevO cs i) (cs.drop i) stq hstqmem
      have hprevw : wordness (ctxAt prevO cs i) = wordness (ctxAt prevI cs i) := by
        cases i with
        | zero =>
          rw [ctxAt_zero, ctxAt_zero]
          rcases G with hG | ⟨_, hbd⟩
          · rw [hG]
          · have hqlb := matchAll_leading_boundary (hqL ▸ hstqmem)
            rw [ctxAt_zero, List.drop_zero] at hqlb
            exact wordness_eq_of_boundary_right hqlb hbd
        | succ j =>
          rw [ctxAt, ctxAt, if_neg (by omega), if_neg (by omega)]
      obtain ⟨st', hmem', -⟩ := matchAll_window q (ctxAt prevO cs i) (ctxAt prevI cs i)
        (cs.drop i) (cs.drop i) l hprevw rfl hlle hlle rfl ⟨stq, hstqmem, hstq2⟩
      have hempty := H i hi (hnm i hi)
      rw [hempty] at hmem'
      simp at hmem'
    · -- a first committed match at m of committed length len
      -- facts about the committed p-match
      obtain ⟨stp, hstpmem, hstp2⟩ := hmatch
      obtain ⟨kp, hkple, hstp2', hstp1⟩ :=
        matchAll_suffix p (ctxAt prevI cs m) (cs.drop m) stp hstpmem
      have hkpeq : kp = len := by
        apply drop_eq_drop_inj hkple (by simp; omega)
        rw [← hstp2', hstp2, ← List.drop_drop]
      have hstp1' : stp.1 = cs.get? (m + len - 1) := by
        rcases hstp1 with ⟨hz, _⟩ | ⟨_, he⟩
        · omega
        · rw [he, List.get?_drop]
          congr 1
          omega
      have hgd : cs.get? (m + len - 1) = some (cs.getD (m + len - 1) ' ') := by
        rw [List.get?_eq_getElem?, List.getD_eq_getElem?_getD,
          List.getElem?_eq_getElem (show m + len - 1 < cs.length from by omega)]
        simp
      have hptb : isBoundary stp.1 stp.2.head? = true :=
        seqL_trailing_boundary (.wordB :: xsp) (ctxAt prevI cs m) (cs.drop m) stp
          (hp2 ▸ hstpmem)
      have hplb : isBoundary (ctxAt prevI cs m) (cs.drop m).head? = true :=
        matchAll_leading_boundary (hpL ▸ hstpmem)
      -- recursive freedom of the scan tail
      have hrec0 : anyMatch q (some ']')
          (scanSub p r (some (cs.getD (m + len - 1) ' ')) (cs.drop (m + len))) = false := by
        apply ihN (cs.drop (m + len)) (some (cs.getD (m + len - 1) ' ')) (some ']')
          (by simp; omega)
        · intro jj hjj hpe
          have hjj' : jj < cs.length - (m + len) := by simpa using hjj
          have hctxa : ctxAt (some (cs.getD (m + len - 1) ' ')) (cs.drop (m + len)) jj =
              ctxAt prevI cs (m + len + jj) :=
            ctxAt_drop_eq prevI (by omega) hgd jj
          rw [hctxa, List.drop_drop] at hpe
          have := H (m + len + jj) (by omega) hpe
          rw [hctxa, List.drop_drop]
          exact this
        · right
          refine ⟨by decide, ?_⟩
          have h1 : stp.1 = some (cs.getD (m + len - 1) ' ') := by rw [hstp1', hgd]
          rw [← h1, ← hstp2]
          exact hptb
      rw [heq, anyMatch_false_iff]
      -- abbreviate the recursive output
      generalize hB : scanSub p r (some (cs.getD (m + len - 1) ' ')) (cs.drop (m + len)) = B
      rw [hB] at hrec0
      -- index bookkeeping over cs.take m ++ r ++ B
      have htm : (cs.take m).length = m := by rw [List.length_take]; omega
      have houtlen : (cs.take m ++ r ++ B).length = m + r.length + B.length := by
        simp [htm]
        omega
      have hgetlt : ∀ j, j < m → (cs.take m ++ r ++ B).get? j = cs.get? j := by
        intro j hj
        rw [List.append_assoc, List.get?_append (by rw [htm]; omega), List.get?_take hj]
      have hgetr : ∀ d, d < r.length → (cs.take m ++ r ++ B).get? (m + d) = r.get? d := by
        intro d hd
        rw [List.append_assoc,
          List.get?_append_right ((le_of_eq htm).trans (Nat.le_add_right m d)), htm,
          show m + d - m = d from by omega, List.get?_append hd]
      have hgetm : (cs.take m ++ r ++ B).get? m = some '[' := by
        have := hgetr 0 (by omega)
        rw [show m + 0 = m from by omega] at this
        rw [this, ← head?_eq_get?, hrhead]
      have hgetB : ∀ t, (cs.take m ++ r ++ B).get? (m + r.length + t) = B.get? t := by
        intro t
        rw [List.append_assoc,
          List.get?_append_right ((le_of_eq htm).trans (by omega)), htm,
          show m + r.length + t - m = r.length + t from by omega,
          List.get?_append_right (Nat.le_add_right _ _),
          show r.length + t - r.length = t from by omega]
      have houttake : ∀ t, t ≤ m → (cs.take m ++ r ++ B).take t = cs.take t := by
        intro t ht
        rw [List.append_assoc, List.take_append_of_le_length (by rw [htm]; omega),
          List.take_take, inf_eq_left.mpr ht]
      intro i hi
      have hi' : i < m + r.length + B.length := by rw [houtlen] at hi; exact hi
      by_contra hne
      obtain ⟨stq, hstqmem⟩ := exists_mem_of_ne_nil hne
      obtain ⟨l, hlle, hstq2, hstq1⟩ := matchAll_suffix q (ctxAt prevO (cs.take m ++ r ++ B) i)
        ((cs.take m ++ r ++ B).drop i) stq hstqmem
      have hl1 : 1 ≤ l := by
        have hpos := consumesPos_sound q _ ((cs.take m ++ r ++ B).drop i) stq hq_cons hstqmem
        have hl := congrArg List.length hstq2
        simp only [List.length_drop] at hl hpos
        omega
      have hconsumed := matchAll_consumed (fun c => Cq c = true) q _
        ((cs.take m ++ r ++ B).drop i) stq hq_cls hstqmem
      have hspan : ((cs.take m ++ r ++ B).drop i).length - stq.2.length = l := by
        have hl := congrArg List.length hstq2
        have hlle' := hlle
        simp only [List.length_drop] at hl hlle' ⊢
        omega
      rw [hspan] at hconsumed
      by_cases him : i < m
      · -- a match starting in the untouched prefix
        have hnotpast : i + l ≤ m := by
          by_contra hgt
          push_neg at hgt
          have hbr : ((cs.take m ++ r ++ B).drop i).get? (m - i) = some '[' := by
            rw [List.get?_drop, show i + (m - i) = m from by omega, hgetm]
          have hmem : '[' ∈ ((cs.take m ++ r ++ B).drop i).take l :=
            mem_take_of_get? hbr (by omega)
          have hq := hconsumed '[' hmem
          simp [hCqL] at hq
        have htake : ((cs.take m ++ r ++ B).drop i).take l = (cs.drop i).take l := by
          rw [List.take_drop, List.take_drop, houttake (i + l) (by omega)]
        have hword : wordness (((cs.take m ++ r ++ B).drop i).get? l) =
            wordness ((cs.drop i).get? l) := by
          rw [List.get?_drop, List.get?_drop]
          by_cases hel : i + l < m
          · rw [hgetlt (i + l) hel]
          · have hem : i + l = m := by omega
            rw [hem, hgetm]
            have hqtb : isBoundary stq.1 stq.2.head? = true :=
              seqL_trailing_boundary (.wordB :: xsq) _ _ stq (hq2 ▸ hstqmem)
            have hstq1' : stq.1 = cs.get? (m - 1) := by
              rcases hstq1 with ⟨hz, _⟩ | ⟨_, he1⟩
              · omega
              · rw [he1, List.get?_drop, show i + (l - 1) = m - 1 from by omega,
                  hgetlt (m - 1) (by omega)]
            have hstq2h : stq.2.head? = some '[' := by
              rw [hstq2, head?_eq_get?, List.get?_drop, List.get?_drop,
                show i + (l + 0) = m from by omega, hgetm]
            rw [hstq1', hstq2h] at hqtb
            have hctxm : ctxAt prevI cs m = cs.get? (m - 1) := by
              rw [ctxAt, if_neg (by omega)]
            rw [hctxm] at hplb
            have hheadm : (cs.drop m).head? = cs.get? m := by
              rw [head?_eq_get?, List.get?_drop, show m + 0 = m from by omega]
            rw [hheadm] at hplb
            exact wordness_eq_of_boundary_left hqtb hplb
        have hprevw : wordness (ctxAt prevO (cs.take m ++ r ++ B) i) =
            wordness (ctxAt prevI cs i) := by
          cases i with
          | zero =>
            rw [ctxAt_zero, ctxAt_zero]
            rcases G with hG | ⟨_, hbd⟩
            · rw [hG]
            · have hqlb := matchAll_leading_boundary (hqL ▸ hstqmem)
              rw [ctxAt_zero, List.drop_zero] at hqlb
              have hhead : (cs.take m ++ r ++ B).head? = cs.head? := by
                rw [head?_eq_get?, hgetlt 0 (by omega), head?_eq_get?]
              rw [hhead] at hqlb
              exact wordness_eq_of_boundary_right hqlb hbd
          | succ j =>
            rw [ctxAt, ctxAt, if_neg (by omega), if_neg (by omega)]
            simp only [Nat.add_sub_cancel]
            rw [hgetlt j (by omega)]
        obtain ⟨st', hmem', -⟩ := matchAll_window q (ctxAt prevO (cs.take m ++ r ++ B) i)
          (ctxAt prevI cs i) ((cs.take m ++ r ++ B).drop i) (cs.drop i) l hprevw htake hlle
          (by simp; omega) hword ⟨stq, hstqmem, hstq2⟩
        have hempty := H i (by omega) (hnm i him)
        rw [hempty] at hmem'
        simp at hmem'
      · by_cases hir : i < m + r.length
        · -- a match starting inside the placeholder
          obtain ⟨d, rfl⟩ : ∃ d, i = m + d := ⟨i - m, by omega⟩
          have hdlt : d < r.length := by omega
          have hdropR2 : (cs.take m ++ r ++ B).drop (m + d) = r.drop d ++ B := by
            rw [List.append_assoc, show m + d = (cs.take m).length + d from by rw [htm],
              List.drop_append, List.drop_append_of_le_length (by omega)]
          have hlbound : l ≤ r.length - 1 - d := by
            by_contra hgt
            push_neg at hgt
            have hbr : ((cs.take m ++ r ++ B).drop (m + d)).get? (r.length - 1 - d) =
                some ']' := by
              rw [hdropR2, List.get?_append (by simp only [List.length_drop]; omega),
                List.get?_drop, show d + (r.length - 1 - d) = r.length - 1 from by omega,
                hrlast]
            have hmem : ']' ∈ ((cs.take m ++ r ++ B).drop (m + d)).take l :=
              mem_take_of_get? hbr (by omega)
            have hq := hconsumed ']' hmem
            simp [hCqR] at hq
          obtain ⟨c, hcmem, hcW⟩ :=
            hasW_sound W q _ ((cs.take m ++ r ++ B).drop (m + d)) stq hq_W hstqmem
          rw [hspan, hdropR2,
            List.take_append_of_le_length (by simp only [List.length_drop]; omega)] at hcmem
          exact hrW c (List.drop_subset d r (List.take_subset l _ hcmem)) hcW
        · -- a match starting inside the recursive output
          obtain ⟨j, rfl⟩ : ∃ j, i = m + r.length + j := ⟨i - (m + r.length), by omega⟩
          have hjB : j < B.length := by omega
          have hdropR3 : (cs.take m ++ r ++ B).drop (m + r.length + j) = B.drop j := by
            rw [List.append_assoc,
              show m + r.length + j = (cs.take m).length + (r.length + j) from by
                rw [htm]; omega,
              List.drop_append, List.drop_append]
          have hctx3 : ctxAt prevO (cs.take m ++ r ++ B) (m + r.length + j) =
              ctxAt (some ']') B j := by
            cases j with
            | zero =>
              rw [ctxAt, ctxAt, if_neg (by omega), if_pos rfl]
              rw [show m + r.length + 0 - 1 = m + (r.length - 1) from by omega,
                hgetr (r.length - 1) (by omega), hrlast]
            | succ t =>
              rw [ctxAt, ctxAt, if_neg (by omega), if_neg (by omega)]
              rw [show m + r.length + (t + 1) - 1 = m + r.length + t from by omega,
                hgetB t]
              simp only [Nat.add_sub_cancel]
          rw [anyMatch_false_iff] at hrec0
          have hfree := hrec0 j hjB
          rw [hctx3, hdropR3] at hne
          exact hne hfree


/-!
### Per-pattern structure facts for the idempotence argument
-/

/-- The union of character classes occurring in `emailPat`. -/
def emailCls (c : Char) : Bool :=
  emailLocalC c || c = '@' || emailDomC c || c = '.' || emailTldC c

/-- The union of character classes occurring in `phonePat`. -/
def phoneCls (c : Char) : Bool :=
  isDigitC c || phoneSep c || c = '+' || c = '1' || c = '(' || c = ')'

/-- The union of character classes occurring in `ssnPat`. -/
def ssnCls (c : Char) : Bool := isDigitC c || c = '-'

/-- The union of character classes occurring in `ccPat`. -/
def ccCls (c : Char) : Bool := isDigitC c || ccSep c

/-- Witness class: a digit or `@`.  Every pattern's every match consumes one
such character, and no placeholder contains one. -/
def WChar (c : Char) : Prop := isDigitC c = true ∨ c = '@'

/-- `emailPat` between its two `\b` anchors. -/
def emailMid : List RePat :=
  [.repGE emailLocalC 1, lit '@', .repGE emailDomC 1, lit '.', .repGE emailTldC 2]

/-- `phonePat` between its two `\b` anchors. -/
def phoneMid : List RePat :=
  [.opt (seqL [.opt (lit '+'), lit '1', .opt (.cls phoneSep)]),
    .opt (lit '('), exactly 3 isDigitC, .opt (lit ')'), .opt (.cls phoneSep),
    exactly 3 isDigitC, .opt (.cls phoneSep), exactly 4 isDigitC]

/-- `ssnPat` between its two `\b` anchors. -/
def ssnMid : List RePat :=
  [exactly 3 isDigitC, lit '-', exactly 2 isDigitC, lit '-', exactly 4 isDigitC]

/-- `ccPat` between its two `\b` anchors. -/
def ccMid : List RePat :=
  [exactly 4 isDigitC, .opt (.cls ccSep),
    exactly 4 isDigitC, .opt (.cls ccSep),
    exactly 4 isDigitC, .opt (.cls ccSep),
    exactly 4 isDigitC]

theorem emailPat_shape : emailPat = seqL (.wordB :: emailMid ++ [.wordB]) := rfl

theorem phonePat_shape : phonePat = seqL (.wordB :: phoneMid ++ [.wordB]) := rfl

theorem ssnPat_shape : ssnPat = seqL (.wordB :: ssnMid ++ [.wordB]) := rfl

theorem ccPat_shape : ccPat = seqL (.wordB :: ccMid ++ [.wordB]) := rfl

theorem emailPat_consumes : ConsumesPos emailPat := by
  simp [emailPat, seqL, lit, ConsumesPos]

theorem phonePat_consumes : ConsumesPos phonePat := by
  simp [phonePat, seqL, lit, exactly, List.replicate, ConsumesPos]

theorem ssnPat_consumes : ConsumesPos ssnPat := by
  simp [ssnPat, seqL, lit, exactly, List.replicate, ConsumesPos]

theorem ccPat_consumes : ConsumesPos ccPat := by
  simp [ccPat, seqL, lit, exactly, List.replicate, ConsumesPos]

theorem emailPat_classes : ClassesLe (fun c => emailCls c = true) emailPat := by
  simp only [emailPat, seqL, List.foldr, lit, ClassesLe]
  repeat' apply And.intro
  all_goals try trivial
  all_goals intro c hc
  all_goals simp [emailCls, hc]

theorem phonePat_classes : ClassesLe (fun c => phoneCls c = true) phonePat := by
  simp only [phonePat, seqL, exactly, List.replicate, List.foldr, lit, ClassesLe]
  repeat' apply And.intro
  all_goals try trivial
  all_goals intro c hc
  all_goals simp [phoneCls, hc]

theorem ssnPat_classes : ClassesLe (fun c => ssnCls c = true) ssnPat := by
  simp only [ssnPat, seqL, exactly, List.replicate, List.foldr, lit, ClassesLe]
  repeat' apply And.intro
  all_goals try trivial
  all_goals intro c hc
  all_goals simp [ssnCls, hc]

theorem ccPat_classes : ClassesLe (fun c => ccCls c = true) ccPat := by
  simp only [ccPat, seqL, exactly, List.replicate, List.foldr, lit, ClassesLe]
  repeat' apply And.intro
  all_goals try trivial
  all_goals intro c hc
  all_goals simp [ccCls, hc]

theorem emailPat_hasW : HasW WChar emailPat := by
  simp only [emailPat, seqL, List.foldr, lit, HasW]
  right; right; left
  intro c hc
  exact Or.inr (of_decide_eq_true hc)

theorem phonePat_hasW : HasW WChar phonePat := by
  simp only [phonePat, seqL, exactly, List.replicate, List.foldr, lit, HasW]
  right; right; right; left; left
  intro c hc
  exact Or.inl hc

theorem ssnPat_hasW : HasW WChar ssnPat := by
  simp only [ssnPat, seqL, exactly, List.replicate, List.foldr, lit, HasW]
  right; left; left
  intro c hc
  exact Or.inl hc

theorem ccPat_hasW : HasW WChar ccPat := by
  simp only [ccPat, seqL, exactly, List.replicate, List.foldr, lit, HasW]
  right; left; left
  intro c hc
  exact Or.inl hc


instance wChar_decidable (c : Char) : Decidable (WChar c) :=
  inferInstanceAs (Decidable (isDigitC c = true ∨ c = '@'))

/-- A match-free `re.sub` is the identity, at string level. -/
theorem pySub_eq_of_free (q : RePat) (repl s : String)
    (h : anyMatch q Option.none s.data = false) : pySub q repl s = s := by
  have h2 := scanSub_of_free q repl.data s.data Option.none h
  show String.mk (scanSub q repl.data Option.none s.data) = s
  rw [h2]

/-- Own-freedom of one substitution pass: its output has no match of its own
pattern. -/
theorem pySub_own (p : RePat) (xsp : List RePat) (rs : String) (Cp : Char → Bool)
    (hsh : p = seqL (.wordB :: xsp ++ [.wordB])) (hcons : ConsumesPos p)
    (hcls : ClassesLe (fun c => Cp c = true) p)
    (hL : Cp '[' = false) (hR : Cp ']' = false)
    (hW : HasW WChar p) (hrW : ∀ c ∈ rs.data, ¬ WChar c)
    (hh : rs.data.head? = some '[')
    (hl : rs.data.get? (rs.data.length - 1) = some ']') (s : String) :
    anyMatch p Option.none (pySub p rs s).data = false :=
  scanSub_keeps_free p p xsp xsp rs.data Cp WChar hsh hsh hcons hcons hcls hL hR hW hrW hh hl
    s.data.length s.data Option.none Option.none (le_refl _) (fun _ _ h => h) (Or.inl rfl)

/-- Preservation: one substitution pass cannot create a match of another
(anchored, digit-or-`@`-consuming) pattern where none existed. -/
theorem pySub_pres (p q : RePat) (xsp xsq : List RePat) (rs : String) (Cq : Char → Bool)
    (hshp : p = seqL (.wordB :: xsp ++ [.wordB]))
    (hshq : q = seqL (.wordB :: xsq ++ [.wordB]))
    (hconsp : ConsumesPos p) (hconsq : ConsumesPos q)
    (hcls : ClassesLe (fun c => Cq c = true) q)
    (hL : Cq '[' = false) (hR : Cq ']' = false)
    (hW : HasW WChar q) (hrW : ∀ c ∈ rs.data, ¬ WChar c)
    (hh : rs.data.head? = some '[')
    (hl : rs.data.get? (rs.data.length - 1) = some ']') (s : String)
    (hfree : anyMatch q Option.none s.data = false) :
    anyMatch q Option.none (pySub p rs s).data = false :=
  scanSub_keeps_free p q xsp xsq rs.data Cq WChar hshp hshq hconsp hconsq hcls hL hR hW hrW
    hh hl s.data.length s.data Option.none Option.none (le_refl _)
    (fun i hi _ => (anyMatch_false_iff q s.data Option.none).mp hfree i hi) (Or.inl rfl)

/-- After the four passes of `redact_pii`, none of the four patterns matches
anywhere in the output. -/
theorem redact_pii_all_free (s : String) (hs : s ≠ "") :
    anyMatch emailPat Option.none (redact_pii s).data = false ∧
    anyMatch phonePat Option.none (redact_pii s).data = false ∧
    anyMatch ssnPat Option.none (redact_pii s).data = false ∧
    anyMatch ccPat Option.none (redact_pii s).data = false := by
  simp only [redact_pii, if_neg hs]
  have he1 := pySub_own emailPat emailMid "[EMAIL_REDACTED]" emailCls emailPat_shape
    emailPat_consumes emailPat_classes (by decide) (by decide) emailPat_hasW
    (by decide) (by decide) (by decide) s
  have hp2 := pySub_own phonePat phoneMid "[PHONE_REDACTED]" phoneCls phonePat_shape
    phonePat_consumes phonePat_classes (by decide) (by decide) phonePat_hasW
    (by decide) (by decide) (by decide) (pySub emailPat "[EMAIL_REDACTED]" s)
  have he2 := pySub_pres phonePat emailPat phoneMid emailMid "[PHONE_REDACTED]" emailCls
    phonePat_shape emailPat_shape phonePat_consumes emailPat_consumes emailPat_classes
    (by decide) (by decide) emailPat_hasW (by decide) (by decide) (by decide)
    (pySub emailPat "[EMAIL_REDACTED]" s) he1
  have hs3 := pySub_own ssnPat ssnMid "[SSN_REDACTED]" ssnCls ssnPat_shape
    ssnPat_consumes ssnPat_classes (by decide) (by decide) ssnPat_hasW
    (by decide) (by decide) (by decide)
    (pySub phonePat "[PHONE_REDACTED]" (pySub emailPat "[EMAIL_REDACTED]" s))
  have he3 := pySub_pres ssnPat emailPat ssnMid emailMid "[SSN_REDACTED]" emailCls
    ssnPat_shape emailPat_shape ssnPat_consumes emailPat_consumes emailPat_classes
    (by decide) (by decide) emailPat_hasW (by decide) (by decide) (by decide)
    (pySub phonePat "[PHONE_REDACTED]" (pySub emailPat "[EMAIL_REDACTED]" s)) he2
  have hp3 := pySub_pres ssnPat phonePat ssnMid phoneMid "[SSN_REDACTED]" phoneCls
    ssnPat_shape phonePat_shape ssnPat_consumes phonePat_consumes phonePat_classes
    (by decide) (by decide) phonePat_hasW (by decide) (by decide) (by decide)
    (pySub phonePat "[PHONE_REDACTED]" (pySub emailPat "[EMAIL_REDACTED]" s)) hp2
  have hc4 := pySub_own ccPat ccMid "[CC_REDACTED]" ccCls ccPat_shape
    ccPat_consumes ccPat_classes (by decide) (by decide) ccPat_hasW
    (by decide) (by decide) (by decide)
    (pySub ssnPat "[SSN_REDACTED]"
      (pySub phonePat "[PHONE_REDACTED]" (pySub emailPat "[EMAIL_REDACTED]" s)))
  have he4 := pySub_pres ccPat emailPat ccMid emailMid "[CC_REDACTED]" emailCls
    ccPat_shape emailPat_shape ccPat_consumes emailPat_consumes emailPat_classes
    (by decide) (by decide) emailPat_hasW (by decide) (by decide) (by decide)
    (pySub ssnPat "[SSN_REDACTED]"
      (pySub phonePat "[PHONE_REDACTED]" (pySub emailPat "[EMAIL_REDACTED]" s))) he3
  have hp4 := pySub_pres ccPat phonePat ccMid phoneMid "[CC_REDACTED]" phoneCls
    ccPat_shape phonePat_shape ccPat_consumes phonePat_consumes phonePat_classes
    (by decide) (by decide) phonePat_hasW (by decide) (by decide) (by decide)
    (pySub ssnPat "[SSN_REDACTED]"
      (pySub phonePat "[PHONE_REDACTED]" (pySub emailPat "[EMAIL_REDACTED]" s))) hp3
  have hs4 := pySub_pres ccPat ssnPat ccMid ssnMid "[CC_REDACTED]" ssnCls
    ccPat_shape ssnPat_shape ccPat_consumes ssnPat_consumes ssnPat_classes
    (by decide) (by decide) ssnPat_hasW (by decide) (by decide) (by decide)
    (pySub ssnPat "[SSN_REDACTED]"
      (pySub phonePat "[PHONE_REDACTED]" (pySub emailPat "[EMAIL_REDACTED]" s))) hs3
  exact ⟨he4, hp4, hs4, hc4⟩

/-- A string free of all four patterns is a fixed point of `redact_pii`. -/
theorem redact_pii_eq_of_free (t : String)
    (he : anyMatch emailPat Option.none t.data = false)
    (hp : anyMatch phonePat Option.none t.data = false)
    (hss : anyMatch ssnPat Option.none t.data = false)
    (hc : anyMatch ccPat Option.none t.data = false) :
    redact_pii t = t := by
  by_cases ht : t = ""
  · simp [redact_pii, ht]
  · simp only [redact_pii, if_neg ht]
    rw [pySub_eq_of_free emailPat _ t he]
    rw [pySub_eq_of_free phonePat _ t hp]
    rw [pySub_eq_of_free ssnPat _ t hss]
    rw [pySub_eq_of_free ccPat _ t hc]


/-- C7: text redaction is idempotent: for every string `s`,
`redact_pii (redact_pii s) = redact_pii s`.  After the four substitution
passes the output contains no match of the email, phone, SSN, or credit-card
pattern at any scan position (each pass removes its own matches and, because
the bracketed placeholders contain no digit or `@` and brackets lie outside
every pattern's character classes, cannot create a match of any of the four
patterns), so a second pass changes nothing. -/
theorem redact_pii_idempotent (s : String) :
    redact_pii (redact_pii s) = redact_pii s := by
  by_cases hs : s = ""
  · subst hs
    rfl
  · obtain ⟨he, hp, hss, hc⟩ := redact_pii_all_free s hs
    exact redact_pii_eq_of_free (redact_pii s) he hp hss hc

end CBC
